import Mathlib

/-!
Verification of the webext-annotated-schemas-generator schema pipeline.

The JavaScript sources (process.mjs, get_thunderbird_schema_files.js,
modules/tools.mjs) operate on parsed JSON trees.  We embed JSON values as a
mutual inductive family (values, array element lists, object property lists)
so that every function of the pipeline can be translated into an executable
Lean definition.  JavaScript objects preserve property insertion order, which
the property-list representation models directly.  Numbers are modeled as
integers: every numeric value the pipeline inspects (manifest version bounds,
parsed version numbers) is integral.
-/

namespace WES

mutual

inductive JSON where
  | null : JSON
  | bool : Bool → JSON
  | num : Int → JSON
  | str : String → JSON
  | arr : JList → JSON
  | obj : JProps → JSON
  deriving DecidableEq

inductive JList where
  | nil : JList
  | cons : JSON → JList → JList
  deriving DecidableEq

inductive JProps where
  | nil : JProps
  | cons : String → JSON → JProps → JProps
  deriving DecidableEq

end

/-- Build an array value from a Lean list (convenience for concrete inputs). -/
def jlist : List JSON → JList
  | [] => JList.nil
  | x :: xs => JList.cons x (jlist xs)

/-- Build a property list from a Lean association list (convenience). -/
def jprops : List (String × JSON) → JProps
  | [] => JProps.nil
  | (k, v) :: xs => JProps.cons k v (jprops xs)

/-- Array value from a Lean list. -/
def jA (l : List JSON) : JSON := JSON.arr (jlist l)

/-- Object value from a Lean association list. -/
def jO (l : List (String × JSON)) : JSON := JSON.obj (jprops l)

/-- Number of elements of an array. -/
def jlength : JList → Nat
  | JList.nil => 0
  | JList.cons _ tl => jlength tl + 1

/-- Number of properties of a property list. -/
def plength : JProps → Nat
  | JProps.nil => 0
  | JProps.cons _ _ tl => plength tl + 1

/-- Element at an index, as in JavaScript array indexing (undefined = none). -/
def jget : JList → Nat → Option JSON
  | JList.nil, _ => none
  | JList.cons x _, 0 => some x
  | JList.cons _ tl, Nat.succ i => jget tl i

/-- Convert an array back to a Lean list (used to state permutation facts). -/
def toListJ : JList → List JSON
  | JList.nil => []
  | JList.cons x tl => x :: toListJ tl

/-- Append of array element lists. -/
def jappend : JList → JList → JList
  | JList.nil, r => r
  | JList.cons x tl, r => JList.cons x (jappend tl r)

/-- First property value for a key (JavaScript property read on an object). -/
def getProp : JProps → String → Option JSON
  | JProps.nil, _ => none
  | JProps.cons k v tl, s => if k = s then some v else getProp tl s

/-- Whether a key is present (Object.hasOwn on the modeled object). -/
def hasProp : JProps → String → Bool
  | JProps.nil, _ => false
  | JProps.cons k _ tl, s => k = s || hasProp tl s

/-- JavaScript property assignment: replace the value in place if the key is
present (keeping its position), otherwise append the property at the end. -/
def setKey : JProps → String → JSON → JProps
  | JProps.nil, s, v => JProps.cons s v JProps.nil
  | JProps.cons k w tl, s, v =>
      if k = s then JProps.cons k v tl else JProps.cons k w (setKey tl s v)

/-- JavaScript delete of a property: remove the key, keep the other
properties in order. -/
def delKey : JProps → String → JProps
  | JProps.nil, _ => JProps.nil
  | JProps.cons k w tl, s =>
      if k = s then delKey tl s else JProps.cons k w (delKey tl s)

/-- JavaScript truthiness of a value. -/
def truthy : JSON → Bool
  | JSON.null => false
  | JSON.bool b => b
  | JSON.num n => n ≠ 0
  | JSON.str s => s ≠ ""
  | JSON.arr _ => true
  | JSON.obj _ => true

/-- Truthiness of a possibly-absent value (undefined is falsy). -/
def truthyOpt : Option JSON → Bool
  | none => false
  | some v => truthy v

/-- JavaScript property read on an arbitrary value: own property of an
object, undefined (none) otherwise.  Property reads on null/undefined throw
in JavaScript; the pipeline never performs them on null. -/
def propOf : JSON → String → Option JSON
  | JSON.obj p, k => getProp p k
  | _, _ => none

/-- The result of the JavaScript typeof operator (note typeof null is
"object"). -/
def jsTypeof : JSON → String
  | JSON.null => "object"
  | JSON.bool _ => "boolean"
  | JSON.num _ => "number"
  | JSON.str _ => "string"
  | JSON.arr _ => "object"
  | JSON.obj _ => "object"

/-- Array.isArray. -/
def isArrB : JSON → Bool
  | JSON.arr _ => true
  | _ => false

/-- Whether typeof yields "object" (null, arrays and plain objects). -/
def isObjType (v : JSON) : Bool := jsTypeof v = "object"

mutual

/-- Maximal nesting depth of a value; the recursion depth of every pipeline
traversal is bounded by it and it is used as the fuel of the embeddings of
the recursive JavaScript functions. -/
def depth : JSON → Nat
  | JSON.arr l => depthL l + 1
  | JSON.obj p => depthP p + 1
  | _ => 1

def depthL : JList → Nat
  | JList.nil => 0
  | JList.cons v tl => max (depth v) (depthL tl)

def depthP : JProps → Nat
  | JProps.nil => 0
  | JProps.cons _ v tl => max (depth v) (depthP tl)

end

mutual

/-- JavaScript String() coercion for the values that occur in the pipeline
(array elements joined with commas, null rendered as empty inside arrays,
plain objects rendered as the standard object tag). -/
def jsToString : JSON → String
  | JSON.null => "null"
  | JSON.bool b => if b then "true" else "false"
  | JSON.num n => toString n
  | JSON.str s => s
  | JSON.arr l => jsToStringL l
  | JSON.obj _ => "[object Object]"

def jsToStringL : JList → String
  | JList.nil => ""
  | JList.cons JSON.null JList.nil => ""
  | JList.cons v JList.nil => jsToString v
  | JList.cons JSON.null tl => "," ++ jsToStringL tl
  | JList.cons v tl => jsToString v ++ "," ++ jsToStringL tl

end

/-- JavaScript Number() coercion restricted to integral results.  Strings
are trimmed; an empty string is 0; otherwise the full string must be an
integer numeral.  Non-integral or non-numeric inputs (NaN in JavaScript)
give none; arrays and objects are not modeled (the version bounds the
pipeline compares are integer numerals). -/
def toNumber : JSON → Option Int
  | JSON.null => some 0
  | JSON.bool b => some (if b then 1 else 0)
  | JSON.num n => some n
  | JSON.str s =>
      let t := s.trim
      if t = "" then some 0 else t.toInt?
  | JSON.arr _ => none
  | JSON.obj _ => none

/-- JavaScript x <= m for a number m (false when x coerces to NaN). -/
def jsLeNum (x : JSON) (m : Int) : Bool :=
  match toNumber x with
  | some n => n ≤ m
  | none => false

/-- JavaScript x >= m for a number m (false when x coerces to NaN). -/
def jsGeNum (x : JSON) (m : Int) : Bool :=
  match toNumber x with
  | some n => m ≤ n
  | none => false

/-- Configuration data consumed by the embedded pipeline.  manifest_version
is the requested manifest version (the source receives it as the string "2"
or "3" and JavaScript coerces it to a number inside every comparison, so it
is modeled as an integer).  rewriteDescription abstracts the chain of
regular-expression rewrites applied to description and deprecated strings
(process.mjs lines 390-398); the claims under verification do not concern
its internals, only where it is applied. -/
structure Config where
  manifest_version : Int
  rewriteDescription : String → String
  docRelease : String

/-- Embedding of isInVersionRange (process.mjs lines 114-118): a node passes
for the requested manifest version mv iff
(!v.min_manifest_version || v.min_manifest_version <= mv) &&
(!v.max_manifest_version || v.max_manifest_version >= mv). -/
def isInVersionRange (mv : Int) (v : JSON) : Bool :=
  (!truthyOpt (propOf v "min_manifest_version")
    || jsLeNum ((propOf v "min_manifest_version").getD JSON.null) mv)
  && (!truthyOpt (propOf v "max_manifest_version")
    || jsGeNum ((propOf v "max_manifest_version").getD JSON.null) mv)

/-- Array filtering by version range (process.mjs line 183). -/
def filterRange (mv : Int) : JList → JList
  | JList.nil => JList.nil
  | JList.cons x tl =>
      if isInVersionRange mv x then JList.cons x (filterRange mv tl)
      else filterRange mv tl

/-- Object property filtering by version range (process.mjs lines 222-228):
the reduce keeps, in order, exactly the properties whose value is in the
requested version range. -/
def filterProps (mv : Int) : JProps → JProps
  | JProps.nil => JProps.nil
  | JProps.cons k v tl =>
      if isInVersionRange mv v then JProps.cons k v (filterProps mv tl)
      else filterProps mv tl

/-- Array.isArray(choice.enum) for one choice (process.mjs line 239). -/
def hasEnumArray (c : JSON) : Bool := isArrB ((propOf c "enum").getD JSON.null)

/-- choices.every((choice) => Array.isArray(choice.enum)). -/
def allEnumArrays : JList → Bool
  | JList.nil => true
  | JList.cons c tl => hasEnumArray c && allEnumArrays tl

/-- The enum array of a choice (empty when absent or not an array; the
callers only use it under the allEnumArrays guard). -/
def enumElems (c : JSON) : JList :=
  match propOf c "enum" with
  | some (JSON.arr l) => l
  | _ => JList.nil

/-- choices.flatMap((choice) => choice.enum) (process.mjs line 242). -/
def flatEnums : JList → JList
  | JList.nil => JList.nil
  | JList.cons c tl => jappend (enumElems c) (flatEnums tl)

/-- Strict lexicographic comparison of character sequences by code point,
matching the code-unit comparison of JavaScript string ordering for the
basic multilingual plane. -/
def charsLtB : List Char → List Char → Bool
  | _, [] => false
  | [], _ :: _ => true
  | a :: as, b :: bs =>
      if a.toNat = b.toNat then charsLtB as bs else decide (a.toNat < b.toNat)

/-- String comparison used by the default JavaScript Array.prototype.sort
comparator (lexicographic, a <= b as not b < a). -/
def strLeB (a b : String) : Bool := !charsLtB b.data a.data

/-- Stable insertion of an element into a list sorted by string image:
the new element goes after every element that compares less-or-equal. -/
def insertSorted (x : JSON) : JList → JList
  | JList.nil => JList.cons x JList.nil
  | JList.cons y tl =>
      if strLeB (jsToString y) (jsToString x) then JList.cons y (insertSorted x tl)
      else JList.cons x (JList.cons y tl)

def sortJAux : JList → JList → JList
  | acc, JList.nil => acc
  | acc, JList.cons x tl => sortJAux (insertSorted x acc) tl

/-- JavaScript Array.prototype.sort() with the default comparator: a stable
sort by the string image of each element (implemented as left-to-right
stable insertion sort). -/
def sortJ (l : JList) : JList := sortJAux JList.nil l

/-- Object.assign(target, source): assign every property of source onto
target in order (replacing in place or appending). -/
def objAssign : JProps → JProps → JProps
  | t, JProps.nil => t
  | t, JProps.cons k v tl => objAssign (setKey t k v) tl

/-- The property list of the first choice, as seen by Object.assign(value,
choices[0]).  A primitive first choice contributes no properties (the merge
guard guarantees an object here). -/
def headProps : JList → JProps
  | JList.cons (JSON.obj p) _ => p
  | _ => JProps.nil

/-- The merged synthetic choice (process.mjs lines 241-243):
base = a copy of choices[0] whose enum property is replaced by the sorted
concatenation of all surviving choices' enum arrays. -/
def mergeEnumChoices (cs : JList) : JSON :=
  match cs with
  | JList.cons (JSON.obj p) _ =>
      JSON.obj (setKey p "enum" (JSON.arr (sortJ (flatEnums cs))))
  | JList.cons c _ => c
  | JList.nil => JSON.null

/-- The filtered and possibly merged choices list (process.mjs lines
233-244): the choices filtered by version range; when at least one survives
and every survivor has an enum array, the single synthetic merged choice. -/
def choicesMerged (mv : Int) (cs : JList) : JList :=
  if jlength (filterRange mv cs) ≠ 0 && allEnumArrays (filterRange mv cs) then
    JList.cons (mergeEnumChoices (filterRange mv cs)) JList.nil
  else filterRange mv cs

/-- The tail of the choices handling (process.mjs lines 249-255): a single
remaining choice is inlined into the object with the choices wrapper
deleted; otherwise the filtered/merged choices replace the property. -/
def choicesFinish (props : JProps) (merged : JList) : JProps :=
  if jlength merged = 1 then objAssign (delKey props "choices") (headProps merged)
  else setKey props "choices" (JSON.arr merged)

/-- Embedding of the choices handling of processSchema (process.mjs lines
232-256).  It runs on the already property-filtered object and applies when
a choices property holds an array (always truthy) and the object has no
truthy $extend.  A non-array truthy choices value would make the source
throw at .filter and never occurs; it is left unchanged here. -/
def choicesStep (mv : Int) (props : JProps) : JProps :=
  match getProp props "choices" with
  | some (JSON.arr cs) =>
      if truthyOpt (getProp props "$extend") then props
      else choicesFinish props (choicesMerged mv cs)
  | _ => props

/-- One entry of the rebuilt enums object: value.enums?.[key] || {}. -/
def enumsEntry (oldEnums : Option JSON) (k : String) : JSON :=
  match oldEnums with
  | some (JSON.obj op) =>
      match getProp op k with
      | some ev => if truthy ev then ev else JSON.obj JProps.nil
      | none => JSON.obj JProps.nil
  | _ => JSON.obj JProps.nil

/-- The rebuilt enums object (process.mjs lines 293-298):
value.enums = value.enum.reduce((acc, key) => { acc[key] = value.enums?.[key]
|| {}; return acc; }, {}).  The reduce assigns, for each enum element (used
as a string key), a value depending only on the key, so repeated keys
collapse to their first occurrence with the same value; the delKey below
performs that collapse. -/
def buildEnums (oldEnums : Option JSON) : JList → JProps
  | JList.nil => JProps.nil
  | JList.cons e tl =>
      let k := jsToString e
      JProps.cons k (enumsEntry oldEnums k) (delKey (buildEnums oldEnums tl) k)

/-- Embedding of the enums rebuilding step: if value.enum is (a truthy)
array, replace/install value.enums as the rebuilt object.  A non-array
truthy enum would make the source throw at .reduce and never occurs. -/
def enumsStep (props : JProps) : JProps :=
  match getProp props "enum" with
  | some (JSON.arr l) =>
      setKey props "enums" (JSON.obj (buildEnums (getProp props "enums") l))
  | _ => props

/-- Object.keys(x).length for the enums cleanup (empty for primitives). -/
def keysCount : JSON → Nat
  | JSON.obj p => plength p
  | _ => 0

/-- Keep the enums entries whose value has at least one key (process.mjs
lines 411-416). -/
def cleanEnumsProps : JProps → JProps
  | JProps.nil => JProps.nil
  | JProps.cons k v tl =>
      if keysCount v > 0 then JProps.cons k v (cleanEnumsProps tl)
      else cleanEnumsProps tl

/-- Embedding of the empty-enums removal (process.mjs lines 409-423): after
the recursive dive, drop enums entries that are empty objects; if none
remain, delete the enums property altogether. -/
def enumsCleanup (d : JProps) : JProps :=
  match getProp d "enums" with
  | some (JSON.obj ep) =>
      let f := cleanEnumsProps ep
      if plength f > 0 then setKey d "enums" (JSON.obj f) else delKey d "enums"
  | _ => d

/-- Map over array elements (used with the fuel-indexed processors). -/
def jmap (f : JSON → JSON) : JList → JList
  | JList.nil => JList.nil
  | JList.cons x tl => JList.cons (f x) (jmap f tl)

/-- Map over property values, keeping keys and order. -/
def jmapProps (f : JSON → JSON) : JProps → JProps
  | JProps.nil => JProps.nil
  | JProps.cons k v tl => JProps.cons k (f v) (jmapProps f tl)

/-- Apply the description/deprecated rewriting when the processed value is a
string (process.mjs lines 386-399). -/
def rewriteIfString (cfg : Config) (v : JSON) : JSON :=
  match v with
  | JSON.str s => JSON.str (cfg.rewriteDescription s)
  | _ => v

/-- Embedding of the reduce that dives into the object properties
(process.mjs lines 364-407), parameterized by the recursive processor f:
every property value is processed recursively; min_manifest_version and
max_manifest_version properties are dropped; description and deprecated
string values are rewritten; everything else is kept in order. -/
def diveProps (cfg : Config) (f : JSON → JSON) : JProps → JProps
  | JProps.nil => JProps.nil
  | JProps.cons k v tl =>
      if k = "min_manifest_version" || k = "max_manifest_version" then
        diveProps cfg f tl
      else if k = "description" || k = "deprecated" then
        JProps.cons k (rewriteIfString cfg (f v)) (diveProps cfg f tl)
      else JProps.cons k (f v) (diveProps cfg f tl)

/-- The object-node transformation performed before the recursive dive:
version filtering of the properties, then the choices handling, then the
enums rebuild (process.mjs lines 222-298, in source order). -/
def transformProps (mv : Int) (props : JProps) : JProps :=
  enumsStep (choicesStep mv (filterProps mv props))

/-- Fuel-indexed embedding of processSchema (process.mjs lines 104-426) in
its pure mode: no searchPath (the historical-search mode is modeled
separately for the revision resolver) and no schemaInfo owner, so the
compat-data attachment (which performs network lookups and is modeled
separately) does not fire; the hierarchical path bookkeeping of the source
only feeds logging and that attachment, hence it does not influence the
returned tree and is omitted.  Scalars are returned unchanged; arrays are
version-filtered and their elements processed; objects undergo the
transformation steps, the recursive property dive (dropping manifest-version
bounds and rewriting description strings) and the empty-enums cleanup.  The
fuel exceeds the recursion depth at every call of the wrapper below, which
supplies the nesting depth of the input. -/
def processValueFuel (cfg : Config) : Nat → JSON → JSON
  | 0, v => v
  | Nat.succ n, v =>
      match v with
      | JSON.arr l =>
          JSON.arr (jmap (processValueFuel cfg n) (filterRange cfg.manifest_version l))
      | JSON.obj props =>
          JSON.obj (enumsCleanup
            (diveProps cfg (processValueFuel cfg n) (transformProps cfg.manifest_version props)))
      | x => x

/-- The embedded processSchema: the fuel is the nesting depth of the input,
which suffices (lemma processValueFuel_congr below shows the result is
independent of any sufficient fuel). -/
def processSchema (cfg : Config) (v : JSON) : JSON :=
  processValueFuel cfg (depth v) v

mutual

/-- Embedding of getNestedIdOrNamespace (process.mjs lines 436-465): the
depth-first search for the first value whose namespace or id property equals
the searched string.  Arrays are searched element by element, objects first
compare their own namespace and id and then search their property values in
order. -/
def getNestedIdOrNamespace (value : JSON) (s : String) : Option JSON :=
  match value with
  | JSON.arr l => getNestedL l s
  | JSON.obj props =>
      if getProp props "namespace" = some (JSON.str s) then some value
      else if getProp props "id" = some (JSON.str s) then some value
      else getNestedP props s
  | _ => none

def getNestedL : JList → String → Option JSON
  | JList.nil, _ => none
  | JList.cons x tl, s =>
      match getNestedIdOrNamespace x s with
      | some r => some r
      | none => getNestedL tl s

def getNestedP : JProps → String → Option JSON
  | JProps.nil, _ => none
  | JProps.cons _ v tl, s =>
      match getNestedIdOrNamespace v s with
      | some r => some r
      | none => getNestedP tl s

end

/-- Parse a nonempty decimal digit sequence. -/
def digitsToNat : List Char → Nat → Option Nat
  | [], acc => some acc
  | c :: cs, acc =>
      if 48 ≤ c.toNat ∧ c.toNat ≤ 57 then digitsToNat cs (acc * 10 + (c.toNat - 48))
      else none

/-- Canonical decimal array index parse of a property name (used by the
object-merge when the merge target is an array). -/
def strToNatIdx (s : String) : Option Nat :=
  match s.data with
  | [] => none
  | cs => digitsToNat cs 0

/-- The own enumerable properties a for-in loop over the merge source
visits: the properties of an object, the index-keyed elements of an array,
nothing for null (the merge only descends into typeof-object values).  The
index keys are produced in ascending order, as JavaScript enumerates them. -/
def indexedProps : Nat → JList → JProps
  | _, JList.nil => JProps.nil
  | i, JList.cons v tl => JProps.cons (toString i) v (indexedProps (i + 1) tl)

def asMergeProps : JSON → JProps
  | JSON.obj p => p
  | JSON.arr l => indexedProps 0 l
  | _ => JProps.nil

/-- JavaScript property read to[n] for the merge (arrays read by canonical
index). -/
def jsGetProp : JSON → String → Option JSON
  | JSON.obj p, n => getProp p n
  | JSON.arr l, n =>
      match strToNatIdx n with
      | some i => jget l i
      | none => none
  | _, _ => none

/-- Elementwise array write; writing at the length appends.  The merge
writes indices in ascending order, so sparse writes beyond the end never
occur and are left unmodeled. -/
def jlistSet : JList → Nat → JSON → JList
  | JList.nil, 0, v => JList.cons v JList.nil
  | JList.nil, Nat.succ _, _ => JList.nil
  | JList.cons _ tl, 0, v => JList.cons v tl
  | JList.cons x tl, Nat.succ i, v => JList.cons x (jlistSet tl i v)

/-- JavaScript property write to[n] = v for the merge.  Writes on
primitives throw in strict mode and never occur for schema-shaped data;
they leave the value unchanged here. -/
def jsSetProp : JSON → String → JSON → JSON
  | JSON.obj p, n, v => JSON.obj (setKey p n v)
  | JSON.arr l, n, v =>
      match strToNatIdx n with
      | some i => JSON.arr (jlistSet l i v)
      | none => JSON.arr l
  | x, _, _ => x

/-- typeof x === "object" for a possibly-absent value (undefined is not an
object). -/
def isObjTypeOpt : Option JSON → Bool
  | some x => isObjType x
  | none => false

mutual

/-- Total node count, used as fuel bound for the object merge. -/
def jweight : JSON → Nat
  | JSON.arr l => jweightL l + 1
  | JSON.obj p => jweightP p + 1
  | _ => 1

def jweightL : JList → Nat
  | JList.nil => 0
  | JList.cons v tl => jweight v + jweightL tl + 1

def jweightP : JProps → Nat
  | JProps.nil => 0
  | JProps.cons _ v tl => jweight v + jweightP tl + 1

end

/-- Fuel-indexed embedding of mergeObjects (process.mjs lines 45-54), the
recursive merge used by the import resolver, walking the property list of
the merge source:

for (const n in from) {
  if (typeof to[n] !== "object") { to[n] = from[n]; }
  else if (typeof from[n] === "object") { to[n] = mergeObjects(to[n], from[n]); }
}
return to;

A property of the source whose value in the target is not of object type
(absent, or a primitive) overwrites it; when both sides are of object type
the merge recurses; otherwise the target value is kept. -/
def mergeObjectsFuel : Nat → JSON → JProps → JSON
  | 0, dst, _ => dst
  | Nat.succ _, dst, JProps.nil => dst
  | Nat.succ n, dst, JProps.cons nm fv tl =>
      let tv := jsGetProp dst nm
      let dst2 :=
        if !isObjTypeOpt tv then jsSetProp dst nm fv
        else if isObjType fv then
          jsSetProp dst nm (mergeObjectsFuel n (tv.getD JSON.null) (asMergeProps fv))
        else dst
      mergeObjectsFuel n dst2 tl

/-- mergeObjects(to, from) with fuel bounded by the node count of the merge
source, which the recursion (descending one source node per fuel unit)
never exhausts. -/
def mergeObjects (dst src : JSON) : JSON :=
  mergeObjectsFuel (jweight src) dst (asMergeProps src)

/-- The segment of a character sequence after the last dot (the whole
sequence when no dot occurs): split(".").pop(). -/
def lastDotSegment : List Char → List Char → List Char
  | [], cur => cur.reverse
  | c :: cs, cur =>
      if c.toNat = 46 then lastDotSegment cs []
      else lastDotSegment cs (c :: cur)

/-- value.$import.split(".").pop(): the trailing identifier of the import
reference (the source always carries a string there). -/
def importIdOf (props : JProps) : String :=
  String.mk (lastDotSegment (jsToString ((getProp props "$import").getD JSON.null)).data [])

/-- The clone of the located import target with the top-level manifest
limits and identification removed (process.mjs lines 66-71): the source
deep-clones through JSON serialization, which on alias-free trees is the
identity, and then deletes min_manifest_version, max_manifest_version,
namespace and id. -/
def stripImported : JSON → JSON
  | JSON.obj p =>
      JSON.obj (delKey (delKey (delKey (delKey p "min_manifest_version")
        "max_manifest_version") "namespace") "id")
  | x => x

/-- Fuel-indexed embedding of processImports (process.mjs lines 35-83).
Scalars are returned unchanged; arrays map the resolver over their
elements; an object bearing $import has the reference deleted, and unless
the trailing identifier is ManifestBase and when the target is found in the
schema, the stripped clone of the target is merged into it and returned
without further recursion (exactly as the source returns
mergeObjects(value, imported) directly); otherwise — ManifestBase, or a
missing target (logged by the source) — the resolver recurses over the
remaining properties.  Lookups search the schema value passed alongside;
the source passes the whole schema tree.  The fuel exceeds the recursion
depth whenever it is at least the nesting depth of the value. -/
def processImportsFuel (schema : JSON) : Nat → JSON → JSON
  | 0, v => v
  | Nat.succ n, v =>
      match v with
      | JSON.arr l => JSON.arr (jmap (processImportsFuel schema n) l)
      | JSON.obj props =>
          if hasProp props "$import" then
            let id := importIdOf props
            let props1 := delKey props "$import"
            if id = "ManifestBase" then
              JSON.obj (jmapProps (processImportsFuel schema n) props1)
            else
              match getNestedIdOrNamespace schema id with
              | some imported =>
                  mergeObjects (JSON.obj props1) (stripImported imported)
              | none => JSON.obj (jmapProps (processImportsFuel schema n) props1)
          else JSON.obj (jmapProps (processImportsFuel schema n) props)
      | x => x

/-- The embedded processImports, with fuel the nesting depth of the value.
The model is pure: lookups always see the schema tree as passed in, while
the source mutates resolved nodes in place (so a lookup hitting an
already-visited part of the tree can see resolved content).  The theorems
below only evaluate it on inputs where the two agree (importing nodes
preceding their targets in traversal order, or no overlap at all). -/
def processImports (schema v : JSON) : JSON :=
  processImportsFuel schema (depth v) v

/-- Model of the in-place effect of processImports on its argument.  The
source deletes $import from every visited node bearing it (process.mjs line
59) and merges resolved import content into the node itself (mergeObjects
mutates and returns its first argument, which the source returns without
visiting the children of the merged node); nodes without $import have their
property values mutated recursively while the reduce assembles a fresh
object with the same keys and the same (mutated) children.  On alias-free
trees the net effect is that the argument is left structurally equal to the
value the function returns; this definition is that effect written out
directly. -/
def argAfterImportsFuel (schema : JSON) : Nat → JSON → JSON
  | 0, v => v
  | Nat.succ n, v =>
      match v with
      | JSON.arr l => JSON.arr (jmap (argAfterImportsFuel schema n) l)
      | JSON.obj props =>
          if hasProp props "$import" then
            let id := importIdOf props
            let props1 := delKey props "$import"
            if id = "ManifestBase" then
              JSON.obj (jmapProps (argAfterImportsFuel schema n) props1)
            else
              match getNestedIdOrNamespace schema id with
              | some imported =>
                  mergeObjects (JSON.obj props1) (stripImported imported)
              | none => JSON.obj (jmapProps (argAfterImportsFuel schema n) props1)
          else JSON.obj (jmapProps (argAfterImportsFuel schema n) props)
      | x => x

/-- The state of the argument value after processImports(schema, value)
returns. -/
def argAfterImports (schema v : JSON) : JSON :=
  argAfterImportsFuel schema (depth v) v

mutual

/-- Whether a property named s occurs anywhere in the tree. -/
def hasKeyDeep (s : String) : JSON → Bool
  | JSON.arr l => hasKeyDeepL s l
  | JSON.obj p => hasKeyDeepP s p
  | _ => false

def hasKeyDeepL (s : String) : JList → Bool
  | JList.nil => false
  | JList.cons v tl => hasKeyDeep s v || hasKeyDeepL s tl

def hasKeyDeepP (s : String) : JProps → Bool
  | JProps.nil => false
  | JProps.cons k v tl => k = s || hasKeyDeep s v || hasKeyDeepP s tl

end

/-- Stable insertion of a property into a list sorted by key (the new
property goes after every property whose key compares less-or-equal). -/
def insertPropSorted (k : String) (v : JSON) : JProps → JProps
  | JProps.nil => JProps.cons k v JProps.nil
  | JProps.cons k2 v2 tl =>
      if strLeB k2 k then JProps.cons k2 v2 (insertPropSorted k v tl)
      else JProps.cons k v (JProps.cons k2 v2 tl)

def sortPropsAux : JProps → JProps → JProps
  | acc, JProps.nil => acc
  | acc, JProps.cons k v tl => sortPropsAux (insertPropSorted k v acc) tl

/-- Object.keys(x).sort(): the properties reordered lexicographically by
key (stable left-to-right insertion sort, matching the stable default
JavaScript sort). -/
def sortPropsByKey (p : JProps) : JProps := sortPropsAux JProps.nil p

mutual

/-- Embedding of sortKeys (modules/tools.mjs lines 47-57): primitives are
returned unchanged, arrays map sortKeys over their elements, and objects
are rebuilt over their sorted keys with recursively sorted values.  The
source sorts the keys first and then maps sortKeys over the looked-up
values; since the sort compares keys only and the recursion touches values
only, mapping the values first and then sorting the properties (as written
here for structural recursion) produces the same property list. -/
def sortKeys : JSON → JSON
  | JSON.arr l => JSON.arr (sortKeysL l)
  | JSON.obj p => JSON.obj (sortPropsByKey (sortKeysP p))
  | x => x

def sortKeysL : JList → JList
  | JList.nil => JList.nil
  | JList.cons v tl => JList.cons (sortKeys v) (sortKeysL tl)

def sortKeysP : JProps → JProps
  | JProps.nil => JProps.nil
  | JProps.cons k v tl => JProps.cons k (sortKeys v) (sortKeysP tl)

end

/-- A step of a structural access path into a JSON tree: an array index or
an object key. -/
inductive PathStep where
  | idx : Nat → PathStep
  | key : String → PathStep
  deriving DecidableEq

/-- Follow an access path (undefined = none when the shape does not
match). -/
def getAtPath : JSON → List PathStep → Option JSON
  | v, [] => some v
  | JSON.arr l, PathStep.idx i :: p =>
      match jget l i with
      | some w => getAtPath w p
      | none => none
  | JSON.obj q, PathStep.key k :: p =>
      match getProp q k with
      | some w => getAtPath w p
      | none => none
  | _, _ => none

/-- The text before the first dot of a version string (the whole string
when it has no dot): v.split(".").at(0). -/
def firstDotSegment : List Char → List Char
  | [] => []
  | c :: cs => if c.toNat = 46 then [] else c :: firstDotSegment cs

def majorVersionOf (s : String) : String := String.mk (firstDotSegment s.data)

/-- Embedding of the revision loop of extractThunderbirdCompatData
(process.mjs lines 687-700):

for (let i = rev.entries.length; i > 0; i--) {
  const revision = rev.entries.at(i - 1).node;
  const result = await testRevision(config, fileName, searchPath, revision);
  if (result) { return readCachedUrl(version_url).then((v) => v.split(".").at(0)); }
}
return false;

entries is the revision log (newest first, as delivered by the version
control host), modeled as the list of its node identifiers; testRevision
(which fetches and searches a historical schema) and the version-file fetch
are external collaborators modeled as oracles.  The scan argument is the
loop index i; the loop therefore visits the last entry (the oldest sampled
revision) first and walks towards the newest.  The JavaScript false result
is modeled as none, a found version string as some. -/
def extractScanTB (test : String → Bool) (versionAt : String → String)
    (entries : List String) : Nat → Option String
  | 0 => none
  | Nat.succ i =>
      match entries[i]? with
      | some r =>
          if test r then some (majorVersionOf (versionAt r))
          else extractScanTB test versionAt entries i
      | none => extractScanTB test versionAt entries i

/-- extractThunderbirdCompatData: scan the bounded revision log from its
oldest entry towards its newest and return the major version of the first
revision containing the searched element, or none (false). -/
def extractThunderbirdCompatData (test : String → Bool)
    (versionAt : String → String) (entries : List String) : Option String :=
  extractScanTB test versionAt entries entries.length

/-- Skip the leading whitespace parseInt ignores. -/
def skipWs : List Char → List Char
  | [] => []
  | c :: cs =>
      if c.toNat = 32 || c.toNat = 9 || c.toNat = 10 || c.toNat = 13 then skipWs cs
      else c :: cs

/-- Numeric value of the leading digit run. -/
def digitsPrefixVal : List Char → Nat → Nat
  | [], acc => acc
  | c :: cs, acc =>
      if 48 ≤ c.toNat ∧ c.toNat ≤ 57 then digitsPrefixVal cs (acc * 10 + (c.toNat - 48))
      else acc

def hasLeadingDigit : List Char → Bool
  | [] => false
  | c :: _ => decide (48 ≤ c.toNat) && decide (c.toNat ≤ 57)

/-- JavaScript parseInt(x, 10): coerce the argument to a string, skip
leading whitespace, accept an optional sign and a leading run of decimal
digits; NaN (none) when no digit follows. -/
def jsParseIntChars : List Char → Option Int
  | '-' :: cs => if hasLeadingDigit cs then some (-(digitsPrefixVal cs 0 : Int)) else none
  | '+' :: cs => if hasLeadingDigit cs then some ((digitsPrefixVal cs 0 : Int)) else none
  | cs => if hasLeadingDigit cs then some ((digitsPrefixVal cs 0 : Int)) else none

def jsParseInt (v : JSON) : Option Int := jsParseIntChars (skipWs (jsToString v).data)

/-- The annotation value pushed for a BCD version_added / version_removed
key (process.mjs lines 530-543; identical in get_thunderbird_schema_files.js
lines 1118-1126):

!isNaN(parseInt(thunderbird_version, 10)) &&
(firefox_version === true || isNaN(parseInt(firefox_version, 10)) ||
 parseInt(thunderbird_version, 10) > parseInt(firefox_version, 10))
  ? thunderbird_version : firefox_version -/
def pickBcdVersionValue (tv fv : JSON) : JSON :=
  match jsParseInt tv with
  | none => fv
  | some t =>
      if fv = JSON.bool true then tv
      else
        match jsParseInt fv with
        | none => tv
        | some f => if t > f then tv else fv

/-- annotations.some((a) => Object.hasOwn(a, key)). -/
def hasAnnKeyed (l : JList) (key : String) : Bool :=
  match l with
  | JList.nil => false
  | JList.cons a tl =>
      (match a with
       | JSON.obj p => hasProp p key
       | _ => false) || hasAnnKeyed tl key

/-- Embedding of the version_added / version_removed case of
addFirefoxCompatData (process.mjs lines 526-545): when an annotation with
the key already exists nothing is pushed; otherwise one annotation object
holding the picked value is appended.  tv is the Thunderbird override read
from the schema root (schemaInfo[key]), fv the Firefox/BCD value. -/
def versionKeyCase (annotations : JList) (key : String) (tv fv : JSON) : JList :=
  if hasAnnKeyed annotations key then annotations
  else
    jappend annotations
      (JList.cons (JSON.obj (JProps.cons key (pickBcdVersionValue tv fv) JProps.nil)) JList.nil)

def API_DOC_BASE_URL : String := "https://webextension-api.thunderbird.net/en"

/-- Lowercasing as applied to the documentation anchors (the anchors are
ASCII identifiers joined with hyphens). -/
def charToLower (c : Char) : Char :=
  if 65 ≤ c.toNat ∧ c.toNat ≤ 90 then Char.ofNat (c.toNat + 32) else c

def toLowerStr (s : String) : String := String.mk (s.data.map charToLower)

def joinDash : List String → String
  | [] => ""
  | [s] => s
  | s :: tl => s ++ "-" ++ joinDash tl

/-- Embedding of getApiDocSlug (process.mjs lines 621-629). -/
def getApiDocSlug (cfg : Config) : String :=
  if cfg.docRelease = "beta" then
    API_DOC_BASE_URL ++ "/beta-mv" ++ toString cfg.manifest_version
  else if cfg.docRelease = "esr" then
    API_DOC_BASE_URL ++ "/esr-mv" ++ toString cfg.manifest_version
  else API_DOC_BASE_URL ++ "/mv" ++ toString cfg.manifest_version

/-- The anchor parts contributed by the parameters
(process.mjs lines 588-590):
value.parameters.map((e) => e.name).filter((e) => e !== "callback"),
each part rendered by Array.prototype.join (null/undefined become empty). -/
def anchorParamParts : JList → List String
  | JList.nil => []
  | JList.cons e tl =>
      let nm := propOf e "name"
      if nm = some (JSON.str "callback") then anchorParamParts tl
      else
        (match nm with
         | none => ""
         | some JSON.null => ""
         | some x => jsToString x) :: anchorParamParts tl

/-- The documentation anchor of an entry (process.mjs lines 585-592): the
entry name followed by the parameter names (excluding any parameter named
callback), hyphen-joined and lowercased.  The parameter parts are only
collected when the value has a (truthy) parameters array. -/
def docAnchorOf (entryName : String) (value : JSON) : String :=
  let parts := entryName :: (match propOf value "parameters" with
    | some (JSON.arr l) => anchorParamParts l
    | _ => [])
  toLowerStr (joinDash parts)

/-- The documentation URL attached for a Thunderbird entry (process.mjs
line 593). -/
def apiDocUrlOf (cfg : Config) (namespaceName entryName : String) (value : JSON) : String :=
  getApiDocSlug cfg ++ "/" ++ namespaceName ++ ".html#" ++ docAnchorOf entryName value

/-- The api_documentation_url push of addThunderbirdCompatData (process.mjs
lines 584-601), for a node at a three-segment address: the URL is validated
live (an external HTTP check, modeled by the urlValid oracle) and the
annotation is appended only when the check succeeds. -/
def addTbDocUrlAnnotations (cfg : Config) (urlValid : String → Bool)
    (namespaceName entryName : String) (value : JSON) (annotations : JList) : JList :=
  let url := apiDocUrlOf cfg namespaceName entryName value
  if urlValid url then
    jappend annotations (JList.cons (JSON.obj (JProps.cons "api_documentation_url" (JSON.str url) JProps.nil)) JList.nil)
  else annotations

/-- choices.every((e) => !!e.enum) of the legacy processSchema
(get_thunderbird_schema_files.js line 1020). -/
def allTruthyEnum : JList → Bool
  | JList.nil => true
  | JList.cons c tl => truthyOpt (propOf c "enum") && allTruthyEnum tl

/-- The merged choice of the legacy processSchema (lines 1021-1028):
v[0].enum is set to the concatenation of all enum arrays, sorted, and v
becomes the singleton of its mutated first element. -/
def legacyMergeEnums (v : JList) : JList :=
  match v with
  | JList.cons (JSON.obj p) _ =>
      JList.cons (JSON.obj (setKey p "enum" (JSON.arr (sortJ (flatEnums v))))) JList.nil
  | _ => v

/-- Embedding of the choices case of the legacy processSchema
(get_thunderbird_schema_files.js lines 1018-1037).  origLen is the length
of the original choices array (v_orig_length, taken before the recursive
processing), v the processed (version-filtered) array and o the accumulator
object under construction.  Both the enum merge and the single-choice
inlining are gated on the filtering having removed at least one entry
(v_orig_length != v.length). -/
def legacyChoicesCase (origLen : Nat) (v : JList) (o : JProps) : JProps :=
  let v2 :=
    if origLen ≠ jlength v && allTruthyEnum v then legacyMergeEnums v else v
  if origLen ≠ jlength v2 && jlength v2 = 1 then objAssign o (headProps v2)
  else setKey o "choices" (JSON.arr v2)

/-- The failure modes of the annotation merger
(get_thunderbird_schema_files.js lines 633-684): the three documented
throws, plus the TypeError a JavaScript primitive operation raises on
degenerate value pairs (for example Object.keys(null)), plus a fuel
exhaustion marker of the embedding (never reached from the wrapper, whose
fuel exceeds the recursion depth). -/
inductive MergeErr where
  | typeMismatch : MergeErr
  | unmatchedEntry : MergeErr
  | choicesLen : MergeErr
  | jsTypeError : MergeErr
  | fuelOut : MergeErr
  deriving DecidableEq

/-- JavaScript loose equality for the values compared by the annotation
matcher (identity strings and manifest version numerals): same-type
primitives compare directly, numbers and booleans against strings compare
numerically, null is loosely equal only to null and undefined.  Objects and
arrays compare by reference in JavaScript, hence two independently parsed
values are never loosely equal here. -/
def jsLooseEqB (a b : JSON) : Bool :=
  match a, b with
  | JSON.null, JSON.null => true
  | JSON.str x, JSON.str y => x = y
  | JSON.arr _, _ => false
  | JSON.obj _, _ => false
  | _, JSON.arr _ => false
  | _, JSON.obj _ => false
  | JSON.null, _ => false
  | _, JSON.null => false
  | x, y =>
      match toNumber x, toNumber y with
      | some m, some n => m = n
      | _, _ => false

/-- Loose equality where either side may be an absent property (undefined
is loosely equal to undefined and null). -/
def jsLooseEqO : Option JSON → Option JSON → Bool
  | some a, some b => jsLooseEqB a b
  | none, none => true
  | none, some JSON.null => true
  | some JSON.null, none => true
  | _, _ => false

/-- The identity filter for an annotation array entry
(get_thunderbird_schema_files.js lines 647-652):
(aEntry.namespace && e.namespace == aEntry.namespace) ||
(aEntry.$extend && e.$extend == aEntry.$extend) ||
(aEntry.name && e.name == aEntry.name) ||
(aEntry.id && e.id == aEntry.id). -/
def matchesIdentity (aEntry e : JSON) : Bool :=
  (truthyOpt (propOf aEntry "namespace")
    && jsLooseEqO (propOf e "namespace") (propOf aEntry "namespace"))
  || (truthyOpt (propOf aEntry "$extend")
    && jsLooseEqO (propOf e "$extend") (propOf aEntry "$extend"))
  || (truthyOpt (propOf aEntry "name")
    && jsLooseEqO (propOf e "name") (propOf aEntry "name"))
  || (truthyOpt (propOf aEntry "id")
    && jsLooseEqO (propOf e "id") (propOf aEntry "id"))

/-- The manifest-version restriction of the matcher (lines 652-655). -/
def matchesVersionBounds (aEntry e : JSON) : Bool :=
  (!truthyOpt (propOf aEntry "min_manifest_version")
    || jsLooseEqO (propOf aEntry "min_manifest_version") (propOf e "min_manifest_version"))
  && (!truthyOpt (propOf aEntry "max_manifest_version")
    || jsLooseEqO (propOf aEntry "max_manifest_version") (propOf e "max_manifest_version"))

/-- A schema entry matches an annotation entry when both filters accept. -/
def annEntryMatches (aEntry e : JSON) : Bool :=
  matchesIdentity aEntry e && matchesVersionBounds aEntry e

/-- Whether some element satisfies a predicate. -/
def jany (f : JSON → Bool) : JList → Bool
  | JList.nil => false
  | JList.cons x tl => f x || jany f tl

/-- s.endsWith(suffix). -/
def listStartsWith : List Char → List Char → Bool
  | [], _ => true
  | _ :: _, [] => false
  | p :: ps, c :: cs => p.toNat = c.toNat && listStartsWith ps cs

def strEndsWith (s suf : String) : Bool :=
  listStartsWith suf.data.reverse s.data.reverse

/-- code.replaceAll("\r", "").split("\n") as an array of strings. -/
def splitLinesAux : List Char → List Char → List String
  | [], cur => [String.mk cur.reverse]
  | c :: cs, cur =>
      if c.toNat = 10 then String.mk cur.reverse :: splitLinesAux cs []
      else splitLinesAux cs (c :: cur)

def strsToJList : List String → JList
  | [] => JList.nil
  | s :: tl => JList.cons (JSON.str s) (strsToJList tl)

def codeLines (content : String) : JList :=
  strsToJList (splitLinesAux (content.data.filter (fun c => c.toNat ≠ 13)) [])

/-- Expansion of one annotation object holding a code file reference
(get_thunderbird_schema_files.js lines 698-710): skipped when code is falsy
or already an array; otherwise a missing type is inferred from the file
extension and the referenced file content (supplied by the readFile oracle
rf, which stands for the fs.readFile relative to the annotation directory)
replaces code as its list of lines. -/
def expandCodeObj (rf : String → String) (aObj : JSON) : JSON :=
  match aObj with
  | JSON.obj p =>
      (match getProp p "code" with
       | some c =>
           if truthy c && !isArrB c then
             let cstr := jsToString c
             let p1 :=
               if truthyOpt (getProp p "type") then p
               else if strEndsWith cstr ".js" || strEndsWith cstr ".mjs" then
                 setKey p "type" (JSON.str "JavaScript")
               else if strEndsWith cstr ".css" then setKey p "type" (JSON.str "CSS")
               else if strEndsWith cstr ".json" then setKey p "type" (JSON.str "JSON")
               else p
             JSON.obj (setKey p1 "code" (JSON.arr (codeLines (rf cstr))))
           else aObj
       | none => aObj)
  | x => x

/-- The enums branch of expandAnnotations (lines 712-718): every enum value
object carrying a truthy annotations property has that property expanded.
Reading a property of a null enum value throws. -/
def expandEnumProps (rf : String → String) : JProps → Except MergeErr JProps
  | JProps.nil => Except.ok JProps.nil
  | JProps.cons k ev tl =>
      match ev with
      | JSON.null => Except.error MergeErr.jsTypeError
      | JSON.obj evp =>
          (match getProp evp "annotations" with
           | some (JSON.arr l) =>
               (expandEnumProps rf tl).map
                 (JProps.cons k (JSON.obj (setKey evp "annotations" (JSON.arr (jmap (expandCodeObj rf) l)))))
           | some w =>
               if truthy w then
                 match w with
                 | JSON.str _ => (expandEnumProps rf tl).map (JProps.cons k ev)
                 | _ => Except.error MergeErr.jsTypeError
               else (expandEnumProps rf tl).map (JProps.cons k ev)
           | none => (expandEnumProps rf tl).map (JProps.cons k ev))
      | _ => (expandEnumProps rf tl).map (JProps.cons k ev)

/-- expandAnnotations (lines 695-720) for a key newly introduced by the
annotation: an annotations key must hold an iterable (an array, whose
objects get their code references expanded; a string iterates to characters
without effect; anything else throws); an enums key has Object.keys
enumerated (throwing on null, empty for primitives); other keys are left
untouched. -/
def expandNewKey (rf : String → String) (k : String) (av : JSON) : Except MergeErr JSON :=
  if k = "annotations" then
    match av with
    | JSON.arr l => Except.ok (JSON.arr (jmap (expandCodeObj rf) l))
    | JSON.str _ => Except.ok av
    | _ => Except.error MergeErr.jsTypeError
  else if k = "enums" then
    match av with
    | JSON.obj ep => (expandEnumProps rf ep).map JSON.obj
    | JSON.null => Except.error MergeErr.jsTypeError
    | _ => Except.ok av
  else Except.ok av

/-- The own length of a value as read by the choices comparison (arrays
and strings have one, everything else reads undefined). -/
def jsLengthOpt : JSON → Option Nat
  | JSON.arr l => some (jlength l)
  | JSON.str s => some s.length
  | _ => none

/-- Positional merge of the choices arrays (lines 675-677), generic in the
recursive merger f; the loop is bounded by the annotation array. -/
def mergePairsGen (f : JSON → JSON → Except MergeErr JSON) :
    JList → JList → Except MergeErr JList
  | sl, JList.nil => Except.ok sl
  | JList.nil, JList.cons _ _ => Except.ok JList.nil
  | JList.cons s stl, JList.cons a atl =>
      (f s a).bind fun s2 => (mergePairsGen f stl atl).map (JList.cons s2)

/-- Merge an annotation entry into every matching schema entry (lines
656-659); each element is tested against the filters in its pre-merge
state, exactly as the source first filters and then merges. -/
def mergeMatchedGen (f : JSON → JSON → Except MergeErr JSON) :
    JList → JSON → Except MergeErr JList
  | JList.nil, _ => Except.ok JList.nil
  | JList.cons e tl, aEntry =>
      if annEntryMatches aEntry e then
        (f e aEntry).bind fun e2 => (mergeMatchedGen f tl aEntry).map (JList.cons e2)
      else (mergeMatchedGen f tl aEntry).map (JList.cons e)

/-- The array branch of mergeAnnotations (lines 641-663): each annotation
entry must match at least one schema entry (else the unmatched-entry error)
and is merged into every match, the updated schema feeding the next
entry. -/
def mergeArrGen (f : JSON → JSON → Except MergeErr JSON) :
    JList → JList → Except MergeErr JList
  | sl, JList.nil => Except.ok sl
  | sl, JList.cons aEntry atl =>
      if jany (annEntryMatches aEntry) sl then
        (mergeMatchedGen f sl aEntry).bind fun sl2 => mergeArrGen f sl2 atl
      else Except.error MergeErr.unmatchedEntry

/-- The object branch of mergeAnnotations (lines 664-682): an annotation
key whose schema value is falsy is expanded and copied in; a choices key
present on both sides requires equal lengths (else the choices-length
error) and merges positionally; any other key present on both sides merges
recursively. -/
def mergeObjGen (f : JSON → JSON → Except MergeErr JSON) (rf : String → String) :
    JProps → JProps → Except MergeErr JProps
  | sp, JProps.nil => Except.ok sp
  | sp, JProps.cons k av atl =>
      (if !truthyOpt (getProp sp k) then
        (expandNewKey rf k av).map fun av2 => setKey sp k av2
      else if k = "choices" then
        let sv := (getProp sp k).getD JSON.null
        if jsLengthOpt sv ≠ jsLengthOpt av then Except.error MergeErr.choicesLen
        else
          match sv, av with
          | JSON.arr sl, JSON.arr al =>
              (mergePairsGen f sl al).map fun sl2 => setKey sp k (JSON.arr sl2)
          | _, _ => Except.ok sp
      else
        (f ((getProp sp k).getD JSON.null) av).map fun sv2 => setKey sp k sv2).bind
        fun sp2 => mergeObjGen f rf sp2 atl

/-- Fuel-indexed embedding of mergeAnnotations
(get_thunderbird_schema_files.js lines 633-684).  A typeof or array-ness
difference between the schema node and the annotation node is the
type-mismatch error; annotation arrays merge by identity matching;
annotation objects merge key by key; matching primitive pairs take neither
branch and succeed without change; null pairs make JavaScript throw a
TypeError (Object.keys(null), or a property read on the null schema node).
The fuel decreases with the annotation nesting depth. -/
def mergeAnnFuel (rf : String → String) : Nat → JSON → JSON → Except MergeErr JSON
  | 0, _, _ => Except.error MergeErr.fuelOut
  | Nat.succ n, s, a =>
      if jsTypeof s ≠ jsTypeof a || isArrB s ≠ isArrB a then
        Except.error MergeErr.typeMismatch
      else
        match a with
        | JSON.arr al =>
            (match s with
             | JSON.arr sl => (mergeArrGen (mergeAnnFuel rf n) sl al).map JSON.arr
             | _ => Except.error MergeErr.jsTypeError)
        | JSON.obj ap =>
            (match s with
             | JSON.obj sp => (mergeObjGen (mergeAnnFuel rf n) rf sp ap).map JSON.obj
             | _ => Except.error MergeErr.jsTypeError)
        | JSON.null => Except.error MergeErr.jsTypeError
        | _ => Except.ok s

/-- The embedded mergeAnnotations: the fuel exceeds the annotation depth,
which bounds the recursion depth. -/
def mergeAnnotations (rf : String → String) (s a : JSON) : Except MergeErr JSON :=
  mergeAnnFuel rf (depth a + 1) s a

theorem depth_pos : ∀ v : JSON, 1 ≤ depth v := by
  intro v
  cases v <;> simp [depth]

theorem depth_getProp : ∀ (p : JProps) (k : String) (v : JSON),
    getProp p k = some v → depth v ≤ depthP p
  | JProps.nil, _, _, h => by simp [getProp] at h
  | JProps.cons k2 w tl, k, v, h => by
      by_cases hk : k2 = k
      · simp [getProp, hk] at h
        subst h
        simp [depthP]
      · simp [getProp, hk] at h
        have := depth_getProp tl k v h
        simp [depthP]
        omega

theorem depthL_filterRange : ∀ (mv : Int) (l : JList),
    depthL (filterRange mv l) ≤ depthL l
  | _, JList.nil => by simp [filterRange]
  | mv, JList.cons x tl => by
      have := depthL_filterRange mv tl
      by_cases h : isInVersionRange mv x <;> simp [filterRange, h, depthL] <;> omega

theorem depthP_filterProps : ∀ (mv : Int) (p : JProps),
    depthP (filterProps mv p) ≤ depthP p
  | _, JProps.nil => by simp [filterProps]
  | mv, JProps.cons k v tl => by
      have := depthP_filterProps mv tl
      by_cases h : isInVersionRange mv v <;> simp [filterProps, h, depthP] <;> omega

theorem depthP_setKey : ∀ (p : JProps) (k : String) (v : JSON),
    depthP (setKey p k v) ≤ max (depthP p) (depth v)
  | JProps.nil, k, v => by simp [setKey, depthP]
  | JProps.cons k2 w tl, k, v => by
      have := depthP_setKey tl k v
      by_cases h : k2 = k <;> simp [setKey, h, depthP] <;> omega

theorem depthP_delKey : ∀ (p : JProps) (k : String),
    depthP (delKey p k) ≤ depthP p
  | JProps.nil, _ => by simp [delKey]
  | JProps.cons k2 w tl, k => by
      have := depthP_delKey tl k
      by_cases h : k2 = k <;> simp [delKey, h, depthP] <;> omega

theorem depthP_objAssign : ∀ (s t : JProps),
    depthP (objAssign t s) ≤ max (depthP t) (depthP s)
  | JProps.nil, t => by simp [objAssign]
  | JProps.cons k v tl, t => by
      have h1 := depthP_objAssign tl (setKey t k v)
      have h2 := depthP_setKey t k v
      simp [objAssign, depthP]
      omega

theorem depthL_jappend : ∀ (a b : JList),
    depthL (jappend a b) = max (depthL a) (depthL b)
  | JList.nil, b => by simp [jappend, depthL]
  | JList.cons x tl, b => by
      have := depthL_jappend tl b
      simp [jappend, depthL, this]
      omega

theorem depthL_insertSorted : ∀ (x : JSON) (l : JList),
    depthL (insertSorted x l) = max (depth x) (depthL l)
  | x, JList.nil => by simp [insertSorted, depthL]
  | x, JList.cons y tl => by
      have := depthL_insertSorted x tl
      by_cases h : strLeB (jsToString y) (jsToString x) = true <;>
        simp [insertSorted, h, depthL, this] <;> omega

theorem depthL_sortJAux : ∀ (l acc : JList),
    depthL (sortJAux acc l) = max (depthL acc) (depthL l)
  | JList.nil, acc => by simp [sortJAux, depthL]
  | JList.cons x tl, acc => by
      have h1 := depthL_sortJAux tl (insertSorted x acc)
      have h2 := depthL_insertSorted x acc
      simp [sortJAux, depthL, h1, h2]
      omega

theorem depthL_sortJ (l : JList) : depthL (sortJ l) = depthL l := by
  simp [sortJ, depthL_sortJAux, depthL]

theorem depth_enumElems : ∀ c : JSON, hasEnumArray c = true →
    depthL (enumElems c) + 2 ≤ depth c := by
  intro c h
  cases c with
  | obj p =>
      cases he : getProp p "enum" with
      | none => simp [hasEnumArray, propOf, he, isArrB] at h
      | some e =>
          cases e <;> simp [hasEnumArray, propOf, he, isArrB] at h
          case arr el =>
            have hb := depth_getProp p "enum" (JSON.arr el) he
            simp [depth] at hb
            simp [enumElems, propOf, he, depth]
            omega
  | null => simp [hasEnumArray, propOf, isArrB] at h
  | bool b => simp [hasEnumArray, propOf, isArrB] at h
  | num n => simp [hasEnumArray, propOf, isArrB] at h
  | str s => simp [hasEnumArray, propOf, isArrB] at h
  | arr l => simp [hasEnumArray, propOf, isArrB] at h

theorem depthL_flatEnums : ∀ cs : JList, allEnumArrays cs = true →
    depthL (flatEnums cs) + 2 ≤ max 2 (depthL cs)
  | JList.nil, _ => by simp [flatEnums, depthL]
  | JList.cons c tl, h => by
      simp [allEnumArrays] at h
      have h1 := depth_enumElems c h.1
      have h2 := depthL_flatEnums tl h.2
      simp [flatEnums, depthL_jappend, depthL]
      omega

theorem depth_cons_ge_two : ∀ (c : JSON) (tl : JList), hasEnumArray c = true →
    2 ≤ depthL (JList.cons c tl) := by
  intro c tl h
  have := depth_enumElems c h
  simp [depthL]
  omega

theorem depth_mergeEnumChoices : ∀ cs : JList, allEnumArrays cs = true →
    cs ≠ JList.nil → depth (mergeEnumChoices cs) ≤ depthL cs := by
  intro cs hall hne
  cases cs with
  | nil => exact absurd rfl hne
  | cons c tl =>
      simp [allEnumArrays] at hall
      have hge2 := depth_cons_ge_two c tl hall.1
      have hflat := depthL_flatEnums (JList.cons c tl) (by simp [allEnumArrays, hall])
      have hc : ∃ p, c = JSON.obj p := by
        have h := hall.1
        cases c <;> simp [hasEnumArray, propOf, isArrB] at h
        case obj p => exact ⟨p, rfl⟩
      obtain ⟨p, rfl⟩ := hc
      have hset := depthP_setKey p "enum"
        (JSON.arr (sortJ (flatEnums (JList.cons (JSON.obj p) tl))))
      simp [mergeEnumChoices, depth, depthL_sortJ] at hset ⊢
      have hcd : depthP p + 1 ≤ depthL (JList.cons (JSON.obj p) tl) := by
        simp [depthL, depth]
      simp [depthL] at hge2 hflat hcd ⊢
      omega

theorem depthP_headProps : ∀ l : JList, depthP (headProps l) + 1 ≤ max 1 (depthL l) := by
  intro l
  cases l with
  | nil => simp [headProps, depthP]
  | cons x tl =>
      cases x <;> simp [headProps, depthP, depthL, depth] <;> omega

theorem depthP_choicesFinish : ∀ (q : JProps) (merged : JList),
    depthL merged + 1 ≤ depthP q → depthP (choicesFinish q merged) ≤ depthP q := by
  intro q merged h
  unfold choicesFinish
  by_cases h1 : jlength merged = 1
  · rw [if_pos h1]
    have ha := depthP_objAssign (headProps merged) (delKey q "choices")
    have hh := depthP_headProps merged
    have hd := depthP_delKey q "choices"
    omega
  · rw [if_neg h1]
    have hs := depthP_setKey q "choices" (JSON.arr merged)
    simp [depth] at hs
    omega

theorem depthL_choicesMerged : ∀ (mv : Int) (cs : JList),
    depthL (choicesMerged mv cs) ≤ depthL cs := by
  intro mv cs
  unfold choicesMerged
  have hfil := depthL_filterRange mv cs
  by_cases hm : (jlength (filterRange mv cs) ≠ 0
      && allEnumArrays (filterRange mv cs)) = true
  · rw [if_pos hm]
    simp at hm
    have hne : filterRange mv cs ≠ JList.nil := by
      intro h
      rw [h] at hm
      simp [jlength] at hm
    have hmc := depth_mergeEnumChoices (filterRange mv cs) hm.2 hne
    simp [depthL]
    omega
  · rw [if_neg hm]
    exact hfil

theorem depthP_choicesStep : ∀ (mv : Int) (q : JProps),
    depthP (choicesStep mv q) ≤ depthP q := by
  intro mv q
  unfold choicesStep
  cases hc : getProp q "choices" with
  | none => simp
  | some c =>
      cases c <;> simp
      case arr cs =>
        by_cases hext : truthyOpt (getProp q "$extend") = true
        · rw [if_pos hext]
        · rw [if_neg hext]
          have hcs : depthL cs + 1 ≤ depthP q := by
            have := depth_getProp q "choices" (JSON.arr cs) hc
            simp [depth] at this
            omega
          have hm := depthL_choicesMerged mv cs
          exact depthP_choicesFinish q (choicesMerged mv cs) (by omega)

/-- The nesting depth of the prior enums object, if it is one. -/
def oldEnumsDepthP : Option JSON → Nat
  | some (JSON.obj op) => depthP op
  | _ => 0

theorem depth_enumsEntry : ∀ (old : Option JSON) (k : String),
    depth (enumsEntry old k) ≤ max 1 (oldEnumsDepthP old) := by
  intro old k
  unfold enumsEntry
  cases old with
  | none => simp [depth, depthP]
  | some o =>
      cases o <;> simp [depth, depthP, oldEnumsDepthP]
      case obj op =>
        cases hg : getProp op k with
        | none => simp [depth, depthP]
        | some ev =>
            have := depth_getProp op k ev hg
            by_cases ht : truthy ev = true <;> simp [ht, depth, depthP] <;> omega

theorem depthP_buildEnums : ∀ (old : Option JSON) (l : JList),
    depthP (buildEnums old l) ≤ max 1 (oldEnumsDepthP old)
  | _, JList.nil => by simp [buildEnums, depthP]
  | old, JList.cons e tl => by
      have h1 := depth_enumsEntry old (jsToString e)
      have h2 := depthP_buildEnums old tl
      have h3 := depthP_delKey (buildEnums old tl) (jsToString e)
      simp [buildEnums, depthP]
      omega

theorem depthP_enumsStep : ∀ q : JProps, depthP (enumsStep q) ≤ depthP q := by
  intro q
  unfold enumsStep
  cases he : getProp q "enum" with
  | none => simp
  | some e =>
      cases e <;> simp
      case arr l =>
        have henum : depthL l + 1 ≤ depthP q := by
          have := depth_getProp q "enum" (JSON.arr l) he
          simp [depth] at this
          omega
        have hbuild := depthP_buildEnums (getProp q "enums") l
        have hset := depthP_setKey q "enums"
          (JSON.obj (buildEnums (getProp q "enums") l))
        simp [depth] at hset
        cases l with
        | nil =>
            simp [buildEnums, depthP] at hbuild hset ⊢
            omega
        | cons x xl =>
            have hl1 : 1 ≤ depthL (JList.cons x xl) := by
              have := depth_pos x
              simp [depthL]
              omega
            have hold : oldEnumsDepthP (getProp q "enums") + 1 ≤ depthP q ∨
                oldEnumsDepthP (getProp q "enums") = 0 := by
              cases ho : getProp q "enums" with
              | none => right; simp [oldEnumsDepthP]
              | some o =>
                  cases o <;> simp [oldEnumsDepthP]
                  case obj op =>
                    left
                    have := depth_getProp q "enums" (JSON.obj op) ho
                    simp [depth] at this
                    omega
            rcases hold with h | h <;> omega

theorem depthP_transformProps : ∀ (mv : Int) (q : JProps),
    depthP (transformProps mv q) ≤ depthP q := by
  intro mv q
  unfold transformProps
  calc depthP (enumsStep (choicesStep mv (filterProps mv q)))
      ≤ depthP (choicesStep mv (filterProps mv q)) := depthP_enumsStep _
    _ ≤ depthP (filterProps mv q) := depthP_choicesStep mv _
    _ ≤ depthP q := depthP_filterProps mv q

theorem jmap_eq_of (f g : JSON → JSON) : ∀ (l : JList) (B : Nat), depthL l ≤ B →
    (∀ w, depth w ≤ B → f w = g w) → jmap f l = jmap g l
  | JList.nil, _, _, _ => rfl
  | JList.cons x tl, B, hb, hfg => by
      simp [depthL] at hb
      simp [jmap, hfg x (by omega), jmap_eq_of f g tl B (by omega) hfg]

theorem diveProps_eq_of (cfg : Config) (f g : JSON → JSON) : ∀ (t : JProps) (B : Nat),
    depthP t ≤ B → (∀ w, depth w ≤ B → f w = g w) →
    diveProps cfg f t = diveProps cfg g t
  | JProps.nil, _, _, _ => rfl
  | JProps.cons k v tl, B, hb, hfg => by
      simp [depthP] at hb
      have hv := hfg v (by omega)
      have ih := diveProps_eq_of cfg f g tl B (by omega) hfg
      simp [diveProps, hv, ih]

/-- The fuel-indexed processor is independent of the fuel as long as it
bounds the nesting depth: the wrapper processSchema therefore computes a
fuel-free function. -/
theorem processValueFuel_congr (cfg : Config) : ∀ (n : Nat) (v : JSON) (m : Nat),
    depth v ≤ n → depth v ≤ m → processValueFuel cfg n v = processValueFuel cfg m v
  | 0, v, _, hn, _ => absurd hn (by have := depth_pos v; omega)
  | Nat.succ _, v, 0, _, hm => absurd hm (by have := depth_pos v; omega)
  | Nat.succ n, v, Nat.succ m, hn, hm => by
      cases v with
      | arr l =>
          simp only [processValueFuel]
          have h : jmap (processValueFuel cfg n) (filterRange cfg.manifest_version l)
              = jmap (processValueFuel cfg m) (filterRange cfg.manifest_version l) := by
            apply jmap_eq_of _ _ _ (depthL l) (depthL_filterRange _ _)
            intro w hw
            simp [depth] at hn hm
            exact processValueFuel_congr cfg n w m (by omega) (by omega)
          rw [h]
      | obj props =>
          simp only [processValueFuel]
          have h : diveProps cfg (processValueFuel cfg n)
                (transformProps cfg.manifest_version props)
              = diveProps cfg (processValueFuel cfg m)
                (transformProps cfg.manifest_version props) := by
            apply diveProps_eq_of cfg _ _ _ (depthP props) (depthP_transformProps _ _)
            intro w hw
            simp [depth] at hn hm
            exact processValueFuel_congr cfg n w m (by omega) (by omega)
          rw [h]
      | null => rfl
      | bool b => rfl
      | num x => rfl
      | str s => rfl

/-- The array equation of the embedded processSchema: an array is the
version-range filter of its elements, each processed recursively
(process.mjs lines 180-216). -/
theorem processSchema_arr (cfg : Config) (l : JList) :
    processSchema cfg (JSON.arr l)
      = JSON.arr (jmap (fun e => processSchema cfg e)
          (filterRange cfg.manifest_version l)) := by
  show JSON.arr (jmap (processValueFuel cfg (depthL l))
      (filterRange cfg.manifest_version l)) = _
  have h : jmap (processValueFuel cfg (depthL l)) (filterRange cfg.manifest_version l)
      = jmap (fun e => processSchema cfg e) (filterRange cfg.manifest_version l) := by
    apply jmap_eq_of _ _ _ (depthL l) (depthL_filterRange _ _)
    intro w hw
    exact processValueFuel_congr cfg (depthL l) w (depth w) hw (le_refl _)
  rw [h]

/-- The object equation of the embedded processSchema: property filtering,
choices handling and enums rebuild, then the recursive dive and the
empty-enums cleanup (process.mjs lines 218-426). -/
theorem processSchema_obj (cfg : Config) (props : JProps) :
    processSchema cfg (JSON.obj props)
      = JSON.obj (enumsCleanup (diveProps cfg (fun e => processSchema cfg e)
          (transformProps cfg.manifest_version props))) := by
  show JSON.obj (enumsCleanup (diveProps cfg (processValueFuel cfg (depthP props))
      (transformProps cfg.manifest_version props))) = _
  have h : diveProps cfg (processValueFuel cfg (depthP props))
        (transformProps cfg.manifest_version props)
      = diveProps cfg (fun e => processSchema cfg e)
        (transformProps cfg.manifest_version props) := by
    apply diveProps_eq_of cfg _ _ _ (depthP props) (depthP_transformProps _ _)
    intro w hw
    exact processValueFuel_congr cfg (depthP props) w (depth w) hw (le_refl _)
  rw [h]

theorem hasKeyDeep_rewriteIfString (cfg : Config) (s : String) (x : JSON) :
    hasKeyDeep s (rewriteIfString cfg x) = hasKeyDeep s x := by
  cases x <;> simp [rewriteIfString, hasKeyDeep]

theorem hasKeyDeepP_getProp (s : String) : ∀ (p : JProps) (k : String) (v : JSON),
    hasKeyDeepP s p = false → getProp p k = some v →
    hasKeyDeep s v = false ∧ k ≠ s
  | JProps.nil, _, _, _, hg => by simp [getProp] at hg
  | JProps.cons k2 w tl, k, v, hp, hg => by
      simp [hasKeyDeepP] at hp
      obtain ⟨⟨h1, h2⟩, h3⟩ := hp
      by_cases hk : k2 = k
      · simp [getProp, hk] at hg
        subst hg
        subst hk
        exact ⟨h2, h1⟩
      · simp [getProp, hk] at hg
        exact hasKeyDeepP_getProp s tl k v (by simp [h3]) hg

theorem hasKeyDeepP_setKey (s : String) : ∀ (p : JProps) (k : String) (v : JSON),
    hasKeyDeepP s p = false → k ≠ s → hasKeyDeep s v = false →
    hasKeyDeepP s (setKey p k v) = false
  | JProps.nil, k, v, _, hk, hv => by simp [setKey, hasKeyDeepP, hk, hv]
  | JProps.cons k2 w tl, k, v, hp, hk, hv => by
      simp [hasKeyDeepP] at hp
      obtain ⟨⟨h1, h2⟩, h3⟩ := hp
      by_cases h : k2 = k
      · simp [setKey, h, hasKeyDeepP, hk, hv, h3]
      · simp [setKey, h, hasKeyDeepP, h1, h2,
          hasKeyDeepP_setKey s tl k v (by simp [h3]) hk hv]

theorem hasKeyDeepP_delKey (s : String) : ∀ (p : JProps) (k : String),
    hasKeyDeepP s p = false → hasKeyDeepP s (delKey p k) = false
  | JProps.nil, _, _ => by simp [delKey, hasKeyDeepP]
  | JProps.cons k2 w tl, k, hp => by
      simp [hasKeyDeepP] at hp
      obtain ⟨⟨h1, h2⟩, h3⟩ := hp
      by_cases h : k2 = k
      · simp [delKey, h, hasKeyDeepP_delKey s tl k (by simp [h3])]
      · simp [delKey, h, hasKeyDeepP, h1, h2,
          hasKeyDeepP_delKey s tl k (by simp [h3])]

theorem hasKeyDeepP_cleanEnums (s : String) : ∀ p : JProps,
    hasKeyDeepP s p = false → hasKeyDeepP s (cleanEnumsProps p) = false
  | JProps.nil, _ => by simp [cleanEnumsProps, hasKeyDeepP]
  | JProps.cons k v tl, hp => by
      simp [hasKeyDeepP] at hp
      obtain ⟨⟨h1, h2⟩, h3⟩ := hp
      have ih := hasKeyDeepP_cleanEnums s tl (by simp [h3])
      by_cases h : keysCount v > 0
      · simp [cleanEnumsProps, h, hasKeyDeepP, h1, h2, ih]
      · simp [cleanEnumsProps, h, ih]

theorem hasKeyDeepP_enumsCleanup (s : String) (d : JProps)
    (hd : hasKeyDeepP s d = false) : hasKeyDeepP s (enumsCleanup d) = false := by
  unfold enumsCleanup
  cases hg : getProp d "enums" with
  | none => exact hd
  | some e =>
      cases e <;> try exact hd
      case obj ep =>
        have hv := hasKeyDeepP_getProp s d "enums" (JSON.obj ep) hd hg
        have hep : hasKeyDeepP s ep = false := by
          have := hv.1
          simpa [hasKeyDeep] using this
        have hne : ¬("enums" = s) := hv.2
        by_cases hf : plength (cleanEnumsProps ep) > 0
        · simp only [hf, if_pos]
          exact hasKeyDeepP_setKey s d "enums" (JSON.obj (cleanEnumsProps ep)) hd hne
            (by simpa [hasKeyDeep] using hasKeyDeepP_cleanEnums s ep hep)
        · simp only [hf, if_neg]
          exact hasKeyDeepP_delKey s d "enums" hd

theorem hasKeyDeepL_jmap (s : String) (f : JSON → JSON) : ∀ (l : JList) (B : Nat),
    depthL l ≤ B → (∀ w, depth w ≤ B → hasKeyDeep s (f w) = false) →
    hasKeyDeepL s (jmap f l) = false
  | JList.nil, _, _, _ => by simp [jmap, hasKeyDeepL]
  | JList.cons x tl, B, hb, hf => by
      simp [depthL] at hb
      simp [jmap, hasKeyDeepL, hf x (by omega),
        hasKeyDeepL_jmap s f tl B (by omega) hf]

theorem hasKeyDeepP_diveProps (cfg : Config) (f : JSON → JSON) (s : String)
    (hs : s = "min_manifest_version" ∨ s = "max_manifest_version") :
    ∀ (t : JProps) (B : Nat), depthP t ≤ B →
    (∀ w, depth w ≤ B → hasKeyDeep s (f w) = false) →
    hasKeyDeepP s (diveProps cfg f t) = false
  | JProps.nil, _, _, _ => by simp [diveProps, hasKeyDeepP]
  | JProps.cons k v tl, B, hb, hf => by
      simp [depthP] at hb
      have ih := hasKeyDeepP_diveProps cfg f s hs tl B (by omega) hf
      have hv := hf v (by omega)
      by_cases h1 : (k = "min_manifest_version" || k = "max_manifest_version") = true
      · simp [diveProps, h1, ih]
      · simp at h1
        by_cases h2 : (k = "description" || k = "deprecated") = true
        · have hk : ¬(k = s) := by
            simp at h2
            rcases hs with h | h <;> rcases h2 with h2 | h2 <;> subst h <;>
              subst h2 <;> decide
          simp [diveProps, h1.1, h1.2, h2, hasKeyDeepP, hk,
            hasKeyDeep_rewriteIfString, hv, ih]
        · have hk : ¬(k = s) := by
            rcases hs with h | h <;> subst h <;> simp [h1.1, h1.2]
          simp at h2
          simp [diveProps, h1.1, h1.2, h2.1, h2.2, hasKeyDeepP, hk, hv, ih]

/-- The embedded processSchema leaves no min_manifest_version or
max_manifest_version property anywhere in its output. -/
theorem hasKeyDeep_processValueFuel (cfg : Config) : ∀ (n : Nat) (v : JSON) (s : String),
    (s = "min_manifest_version" ∨ s = "max_manifest_version") → depth v ≤ n →
    hasKeyDeep s (processValueFuel cfg n v) = false
  | 0, v, _, _, hn => absurd hn (by have := depth_pos v; omega)
  | Nat.succ n, v, s, hs, hn => by
      cases v with
      | arr l =>
          simp only [processValueFuel]
          show hasKeyDeepL s _ = false
          apply hasKeyDeepL_jmap s _ _ (depthL l) (depthL_filterRange _ _)
          intro w hw
          simp [depth] at hn
          exact hasKeyDeep_processValueFuel cfg n w s hs (by omega)
      | obj props =>
          simp only [processValueFuel]
          show hasKeyDeepP s _ = false
          apply hasKeyDeepP_enumsCleanup
          apply hasKeyDeepP_diveProps cfg _ s hs _ (depthP props)
            (depthP_transformProps _ _)
          intro w hw
          simp [depth] at hn
          exact hasKeyDeep_processValueFuel cfg n w s hs (by omega)
      | null => simp [processValueFuel, hasKeyDeep]
      | bool b => simp [processValueFuel, hasKeyDeep]
      | num x => simp [processValueFuel, hasKeyDeep]
      | str t => simp [processValueFuel, hasKeyDeep]

theorem hasKeyDeep_processSchema (cfg : Config) (v : JSON) (s : String)
    (hs : s = "min_manifest_version" ∨ s = "max_manifest_version") :
    hasKeyDeep s (processSchema cfg v) = false :=
  hasKeyDeep_processValueFuel cfg (depth v) v s hs (le_refl _)

/-- Claim-side retention predicate written from the words of the spec: a
node is retained iff it has no min_manifest_version or
min_manifest_version not above the requested version, and it has no
max_manifest_version or max_manifest_version not below it.  The spec
speaks of numeric bounds; non-numeric bounds fall outside its wording and
are mapped to not-retained here. -/
def specRetained (mv : Int) (v : JSON) : Bool :=
  (match propOf v "min_manifest_version" with
   | none => true
   | some (JSON.num n) => decide (n ≤ mv)
   | some _ => false)
  && (match propOf v "max_manifest_version" with
      | none => true
      | some (JSON.num n) => decide (mv ≤ n)
      | some _ => false)

/-- A possibly-present bound is a nonzero numeral: the shape of every real
manifest-version bound (2 or 3).  A zero bound would be falsy in
JavaScript and read by the code as absent, which the wording of the spec
cannot express. -/
def numericBound : Option JSON → Bool
  | none => true
  | some (JSON.num n) => decide (n ≠ 0)
  | some _ => false

def versionFieldsNumeric (v : JSON) : Bool :=
  numericBound (propOf v "min_manifest_version")
    && numericBound (propOf v "max_manifest_version")

def allNumericBounds : JList → Bool
  | JList.nil => true
  | JList.cons x tl => versionFieldsNumeric x && allNumericBounds tl

def allNumericBoundsP : JProps → Bool
  | JProps.nil => true
  | JProps.cons _ v tl => versionFieldsNumeric v && allNumericBoundsP tl

/-- Array filtering as worded by the spec. -/
def specFilterRange (mv : Int) : JList → JList
  | JList.nil => JList.nil
  | JList.cons x tl =>
      if specRetained mv x then JList.cons x (specFilterRange mv tl)
      else specFilterRange mv tl

/-- Property filtering as worded by the spec. -/
def specFilterProps (mv : Int) : JProps → JProps
  | JProps.nil => JProps.nil
  | JProps.cons k v tl =>
      if specRetained mv v then JProps.cons k v (specFilterProps mv tl)
      else specFilterProps mv tl

/-- For nonzero numeric bounds the code predicate (a falsiness test
followed by the comparison) agrees with the spec wording. -/
theorem isInVersionRange_eq_spec (mv : Int) (v : JSON)
    (h : versionFieldsNumeric v = true) : isInVersionRange mv v = specRetained mv v := by
  simp [versionFieldsNumeric] at h
  unfold isInVersionRange specRetained
  obtain ⟨h1, h2⟩ := h
  cases hmin : propOf v "min_manifest_version" with
  | none =>
      cases hmax : propOf v "max_manifest_version" with
      | none => simp [truthyOpt]
      | some x =>
          rw [hmax] at h2
          cases x <;> simp [numericBound] at h2
          case num n => simp [truthyOpt, truthy, h2, jsGeNum, toNumber]
  | some x =>
      rw [hmin] at h1
      cases x <;> simp [numericBound] at h1
      case num n =>
        cases hmax : propOf v "max_manifest_version" with
        | none => simp [truthyOpt, truthy, h1, jsLeNum, toNumber]
        | some y =>
            rw [hmax] at h2
            cases y <;> simp [numericBound] at h2
            case num n2 => simp [truthyOpt, truthy, h1, h2, jsLeNum, jsGeNum, toNumber]

theorem filterRange_eq_spec (mv : Int) : ∀ l : JList,
    allNumericBounds l = true → filterRange mv l = specFilterRange mv l
  | JList.nil, _ => rfl
  | JList.cons x tl, h => by
      simp [allNumericBounds] at h
      rw [filterRange, specFilterRange, isInVersionRange_eq_spec mv x h.1,
        filterRange_eq_spec mv tl h.2]

theorem filterProps_eq_spec (mv : Int) : ∀ p : JProps,
    allNumericBoundsP p = true → filterProps mv p = specFilterProps mv p
  | JProps.nil, _ => rfl
  | JProps.cons k v tl, h => by
      simp [allNumericBoundsP] at h
      rw [filterProps, specFilterProps, isInVersionRange_eq_spec mv v h.1,
        filterProps_eq_spec mv tl h.2]

theorem charsLt_asymm : ∀ a b : List Char,
    charsLtB a b = true → charsLtB b a = false
  | [], [], h => by simp [charsLtB] at h
  | [], _ :: _, _ => by simp [charsLtB]
  | _ :: _, [], h => by simp [charsLtB] at h
  | a :: as, b :: bs, h => by
      by_cases he : a.toNat = b.toNat
      · simp [charsLtB, he] at h ⊢
        exact charsLt_asymm as bs h
      · simp [charsLtB, he] at h
        have hne : ¬(b.toNat = a.toNat) := fun hh => he hh.symm
        simp [charsLtB, hne]
        omega

theorem strLeB_total (a b : String) : strLeB a b = true ∨ strLeB b a = true := by
  cases hlt : charsLtB b.data a.data with
  | false => left; simp [strLeB, hlt]
  | true =>
      right
      have := charsLt_asymm b.data a.data hlt
      simp [strLeB, this]

/-- Adjacent-pairs sortedness by the string image of the elements (what
"lexicographically sorted" means for the merged enum list). -/
def chainLeB : JList → Bool
  | JList.nil => true
  | JList.cons _ JList.nil => true
  | JList.cons x (JList.cons y tl) =>
      strLeB (jsToString x) (jsToString y) && chainLeB (JList.cons y tl)

def headLeB (s : String) : JList → Bool
  | JList.nil => true
  | JList.cons y _ => strLeB s (jsToString y)

theorem chainLeB_cons (y : JSON) (l : JList) :
    chainLeB (JList.cons y l) = (headLeB (jsToString y) l && chainLeB l) := by
  cases l <;> simp [chainLeB, headLeB]

theorem headLeB_insertSorted (s : String) (x : JSON) : ∀ l : JList,
    headLeB s l = true → strLeB s (jsToString x) = true →
    headLeB s (insertSorted x l) = true := by
  intro l hl hx
  cases l with
  | nil => simp [insertSorted, headLeB, hx]
  | cons y tl =>
      by_cases h : strLeB (jsToString y) (jsToString x) = true
      · simp [insertSorted, h, headLeB]
        simpa [headLeB] using hl
      · simp [insertSorted, h, headLeB, hx]

theorem chainLeB_insertSorted (x : JSON) : ∀ l : JList,
    chainLeB l = true → chainLeB (insertSorted x l) = true
  | JList.nil, _ => by simp [insertSorted, chainLeB]
  | JList.cons y tl, h => by
      rw [chainLeB_cons] at h
      simp at h
      by_cases hle : strLeB (jsToString y) (jsToString x) = true
      · have ih := chainLeB_insertSorted x tl h.2
        have hh := headLeB_insertSorted (jsToString y) x tl h.1 hle
        simp [insertSorted, hle]
        rw [chainLeB_cons]
        simp [hh, ih]
      · have hxy : strLeB (jsToString x) (jsToString y) = true := by
          rcases strLeB_total (jsToString y) (jsToString x) with hc | hc
          · exact absurd hc hle
          · exact hc
        simp [insertSorted, hle]
        rw [chainLeB_cons]
        simp [headLeB, hxy]
        rw [chainLeB_cons]
        simp [h.1, h.2]

theorem chainLeB_sortJAux : ∀ (l acc : JList),
    chainLeB acc = true → chainLeB (sortJAux acc l) = true
  | JList.nil, _, h => h
  | JList.cons x tl, acc, h =>
      chainLeB_sortJAux tl (insertSorted x acc) (chainLeB_insertSorted x acc h)

/-- The merged enum list produced by the JavaScript sort is sorted. -/
theorem chainLeB_sortJ (l : JList) : chainLeB (sortJ l) = true :=
  chainLeB_sortJAux l JList.nil rfl

theorem toListJ_insertSorted (x : JSON) : ∀ l : JList,
    (toListJ (insertSorted x l)).Perm (x :: toListJ l)
  | JList.nil => by simp [insertSorted, toListJ]
  | JList.cons y tl => by
      by_cases h : strLeB (jsToString y) (jsToString x) = true
      · simp only [insertSorted, h, if_true, toListJ]
        exact ((toListJ_insertSorted x tl).cons y).trans (List.Perm.swap x y _)
      · simp [insertSorted, h, toListJ]

theorem toListJ_sortJAux : ∀ (l acc : JList),
    (toListJ (sortJAux acc l)).Perm (toListJ acc ++ toListJ l)
  | JList.nil, acc => by simp [sortJAux, toListJ]
  | JList.cons x tl, acc => by
      have ih := toListJ_sortJAux tl (insertSorted x acc)
      have hi := toListJ_insertSorted x acc
      have h2 : (toListJ (sortJAux (insertSorted x acc) tl)).Perm
          ((x :: toListJ acc) ++ toListJ tl) := ih.trans (hi.append_right _)
      have h3 : ((x :: toListJ acc) ++ toListJ tl).Perm
          (toListJ acc ++ x :: toListJ tl) := by
        simpa using (@List.perm_middle JSON x (toListJ acc) (toListJ tl)).symm
      simpa [sortJAux, toListJ] using h2.trans h3

/-- The merged enum list is a permutation of the concatenation of the
survivors' enum arrays. -/
theorem sortJ_perm (l : JList) : (toListJ (sortJ l)).Perm (toListJ l) := by
  simpa [toListJ] using toListJ_sortJAux l JList.nil

theorem getProp_setKey : ∀ (p : JProps) (k : String) (v : JSON),
    getProp (setKey p k v) k = some v
  | JProps.nil, k, v => by simp [setKey, getProp]
  | JProps.cons k2 w tl, k, v => by
      by_cases h : k2 = k
      · simp [setKey, h, getProp]
      · simp [setKey, h, getProp, getProp_setKey tl k v]

theorem getProp_setKey_ne : ∀ (p : JProps) (k k2 : String) (v : JSON), k2 ≠ k →
    getProp (setKey p k v) k2 = getProp p k2
  | JProps.nil, k, k2, v, h => by
      have hk : ¬(k = k2) := fun hh => h hh.symm
      simp [setKey, getProp, hk]
  | JProps.cons k3 w tl, k, k2, v, h => by
      by_cases h3 : k3 = k
      · subst h3
        have hk : ¬(k3 = k2) := fun hh => h hh.symm
        simp [setKey, getProp, hk]
      · simp [setKey, h3]
        by_cases h32 : k3 = k2 <;> simp [getProp, h32, getProp_setKey_ne tl k k2 v h]

theorem jlength_eq_zero : ∀ l : JList, jlength l = 0 ↔ l = JList.nil := by
  intro l
  cases l <;> simp [jlength]

/-- The choices handling factors through the filtered/merged list whenever
the property holds an array and there is no truthy $extend. -/
theorem choicesStep_eq (mv : Int) (props : JProps) (cs : JList)
    (hc : getProp props "choices" = some (JSON.arr cs))
    (hext : truthyOpt (getProp props "$extend") = false) :
    choicesStep mv props = choicesFinish props (choicesMerged mv cs) := by
  unfold choicesStep
  rw [hc]
  simp [hext]

/-- When at least one choice survives the filter and every survivor is
enum-only, the merged list is the singleton synthetic choice — regardless
of whether the filter removed anything. -/
theorem choicesMerged_enum (mv : Int) (cs : JList)
    (hne : filterRange mv cs ≠ JList.nil)
    (hall : allEnumArrays (filterRange mv cs) = true) :
    choicesMerged mv cs
      = JList.cons (mergeEnumChoices (filterRange mv cs)) JList.nil := by
  unfold choicesMerged
  rw [if_pos]
  simp [hall]
  exact fun h => hne ((jlength_eq_zero _).mp h)

/-- When no merge applies the merged list is just the filtered list. -/
theorem choicesMerged_plain (mv : Int) (cs : JList)
    (h : ¬(jlength (filterRange mv cs) ≠ 0 ∧ allEnumArrays (filterRange mv cs) = true)) :
    choicesMerged mv cs = filterRange mv cs := by
  unfold choicesMerged
  rw [if_neg]
  simp
  intro h1
  by_contra h2
  simp at h2
  exact h ⟨h1, h2⟩

/-- A single remaining choice is always inlined into the object with the
choices wrapper removed. -/
theorem choicesFinish_inline (props : JProps) (merged : JList)
    (h : jlength merged = 1) :
    choicesFinish props merged = objAssign (delKey props "choices") (headProps merged) := by
  unfold choicesFinish
  rw [if_pos h]

/-- Otherwise the filtered choices replace the property. -/
theorem choicesFinish_keep (props : JProps) (merged : JList)
    (h : jlength merged ≠ 1) :
    choicesFinish props merged = setKey props "choices" (JSON.arr merged) := by
  unfold choicesFinish
  rw [if_neg h]

/-- The synthetic merged choice is its first survivor with the enum
property replaced by the sorted concatenation of all survivors' enums. -/
theorem mergeEnumChoices_obj (p : JProps) (tl : JList) :
    mergeEnumChoices (JList.cons (JSON.obj p) tl)
      = JSON.obj (setKey p "enum"
          (JSON.arr (sortJ (flatEnums (JList.cons (JSON.obj p) tl))))) := rfl

/-- Whether the keys of a property list are pairwise distinct (JavaScript
objects always satisfy this). -/
def uniqKeysB : JProps → Bool
  | JProps.nil => true
  | JProps.cons k _ tl => !hasProp tl k && uniqKeysB tl

theorem hasProp_getProp : ∀ (p : JProps) (k : String),
    hasProp p k = (getProp p k).isSome
  | JProps.nil, _ => by simp [hasProp, getProp]
  | JProps.cons k2 v tl, k => by
      by_cases h : k2 = k <;> simp [hasProp, getProp, h, hasProp_getProp tl k]

theorem hasProp_setKey_of : ∀ (p : JProps) (k k2 : String) (v : JSON),
    hasProp p k = true → hasProp (setKey p k2 v) k = true
  | JProps.nil, k, k2, v, h => by simp [hasProp] at h
  | JProps.cons k3 w tl, k, k2, v, h => by
      simp [hasProp] at h
      by_cases h3 : k3 = k2
      · simp [setKey, h3, hasProp]
        rcases h with h | h
        · left; rw [← h3, h]
        · right; exact h
      · simp [setKey, h3, hasProp]
        rcases h with h | h
        · left; exact h
        · right; exact hasProp_setKey_of tl k k2 v h

theorem getProp_delKey_self : ∀ (p : JProps) (k : String),
    getProp (delKey p k) k = none
  | JProps.nil, _ => by simp [delKey, getProp]
  | JProps.cons k2 w tl, k => by
      by_cases h : k2 = k <;> simp [delKey, h, getProp, getProp_delKey_self tl k]

theorem getProp_delKey_ne : ∀ (p : JProps) (k k2 : String), k2 ≠ k →
    getProp (delKey p k) k2 = getProp p k2
  | JProps.nil, _, _, _ => by simp [delKey]
  | JProps.cons k3 w tl, k, k2, h => by
      have hk : ¬(k = k2) := fun hh => h hh.symm
      by_cases h3 : k3 = k
      · have h32 : ¬(k3 = k2) := by rw [h3]; exact hk
        simp [delKey, h3, getProp, h32, hk, getProp_delKey_ne tl k k2 h]
      · by_cases h32 : k3 = k2
        · simp [delKey, h3, getProp, h32, h, getProp_delKey_ne tl k k2 h]
        · simp [delKey, h3, getProp, h32, getProp_delKey_ne tl k k2 h]

theorem hasProp_delKey_self (p : JProps) (k : String) :
    hasProp (delKey p k) k = false := by
  rw [hasProp_getProp, getProp_delKey_self]
  rfl

/-- The merge never touches keys its source does not mention: for every
key absent from the merge source, the merged object reads as the target
did (any fuel; the fuel-0 fallback returns the target unchanged). -/
theorem mergeFuel_frame : ∀ (fp : JProps) (n : Nat) (tp : JProps) (k : String),
    hasProp fp k = false →
    propOf (mergeObjectsFuel n (JSON.obj tp) fp) k = getProp tp k
  | JProps.nil, n, tp, k, _ => by
      cases n <;> simp [mergeObjectsFuel, propOf]
  | JProps.cons nm fv tl, n, tp, k, h => by
      simp [hasProp] at h
      cases n with
      | zero => simp [mergeObjectsFuel, propOf]
      | succ n =>
          simp only [mergeObjectsFuel]
          by_cases h1 : isObjTypeOpt (jsGetProp (JSON.obj tp) nm) = true
          · simp only [h1, Bool.not_true, Bool.false_eq_true, if_false]
            by_cases h2 : isObjType fv = true
            · simp only [h2, if_true]
              rw [show jsSetProp (JSON.obj tp) nm _ = JSON.obj (setKey tp nm _) from rfl]
              rw [mergeFuel_frame tl n _ k h.2,
                getProp_setKey_ne tp nm k _ (fun hh => h.1 hh.symm)]
            · simp only [h2, if_false]
              exact mergeFuel_frame tl n tp k h.2
          · simp only [h1]
            simp only [Bool.not_eq_true] at h1
            simp only [h1, Bool.not_false, if_true]
            rw [show jsSetProp (JSON.obj tp) nm fv = JSON.obj (setKey tp nm fv) from rfl]
            rw [mergeFuel_frame tl n _ k h.2,
              getProp_setKey_ne tp nm k fv (fun hh => h.1 hh.symm)]

/-- A key of the merge source whose value in the target is not of object
type (a primitive, or absent) ends up carrying the source value: the merge
overwrites it. -/
theorem mergeFuel_overwrite : ∀ (fp : JProps) (n : Nat) (tp : JProps) (k : String) (w : JSON),
    uniqKeysB fp = true → plength fp ≤ n → getProp fp k = some w →
    isObjTypeOpt (getProp tp k) = false →
    propOf (mergeObjectsFuel n (JSON.obj tp) fp) k = some w
  | JProps.nil, _, _, _, _, _, _, hg, _ => by simp [getProp] at hg
  | JProps.cons nm fv tl, n, tp, k, w, hu, hn, hg, ht => by
      simp [uniqKeysB] at hu
      simp [plength] at hn
      cases n with
      | zero => omega
      | succ n =>
          simp only [mergeObjectsFuel]
          by_cases hnm : nm = k
          · subst hnm
            simp [getProp] at hg
            subst hg
            have hget : jsGetProp (JSON.obj tp) nm = getProp tp nm := rfl
            simp only [hget, ht, Bool.not_false, if_true]
            rw [show jsSetProp (JSON.obj tp) nm fv = JSON.obj (setKey tp nm fv) from rfl]
            rw [mergeFuel_frame tl n _ nm hu.1, getProp_setKey]
          · simp [getProp, hnm] at hg
            have hrec : ∀ tp2 : JProps, getProp tp2 k = getProp tp k →
                propOf (mergeObjectsFuel n (JSON.obj tp2) tl) k = some w := by
              intro tp2 h2
              exact mergeFuel_overwrite tl n tp2 k w hu.2 (by omega) hg (by rw [h2]; exact ht)
            by_cases h1 : isObjTypeOpt (jsGetProp (JSON.obj tp) nm) = true
            · simp only [h1, Bool.not_true, Bool.false_eq_true, if_false]
              by_cases h2 : isObjType fv = true
              · simp only [h2, if_true]
                rw [show jsSetProp (JSON.obj tp) nm _ = JSON.obj (setKey tp nm _) from rfl]
                exact hrec _ (getProp_setKey_ne tp nm k _ (fun hh => hnm hh.symm))
              · simp only [h2, if_false]
                exact hrec tp rfl
            · simp only [h1]
              simp only [Bool.not_eq_true] at h1
              simp only [h1, Bool.not_false, if_true]
              rw [show jsSetProp (JSON.obj tp) nm fv = JSON.obj (setKey tp nm fv) from rfl]
              exact hrec _ (getProp_setKey_ne tp nm k fv (fun hh => hnm hh.symm))

/-- A key whose target value is of object type is kept (not overwritten)
when the source value for it is not of object type. -/
theorem mergeFuel_keepObj : ∀ (fp : JProps) (n : Nat) (tp : JProps) (k : String)
    (v fv : JSON), uniqKeysB fp = true → plength fp ≤ n →
    getProp tp k = some v → isObjType v = true →
    getProp fp k = some fv → isObjType fv = false →
    propOf (mergeObjectsFuel n (JSON.obj tp) fp) k = some v
  | JProps.nil, _, _, _, _, _, _, _, _, _, hg, _ => by simp [getProp] at hg
  | JProps.cons nm fv0 tl, n, tp, k, v, fv, hu, hn, htp, hv, hg, hf => by
      simp [uniqKeysB] at hu
      simp [plength] at hn
      cases n with
      | zero => omega
      | succ n =>
          simp only [mergeObjectsFuel]
          by_cases hnm : nm = k
          · subst hnm
            simp [getProp] at hg
            subst hg
            have hget : jsGetProp (JSON.obj tp) nm = getProp tp nm := rfl
            have hobj : isObjTypeOpt (getProp tp nm) = true := by
              rw [htp]; simpa [isObjTypeOpt] using hv
            simp only [hget, hobj, Bool.not_true, Bool.false_eq_true, if_false, hf, if_false]
            rw [mergeFuel_frame tl n tp nm hu.1, htp]
          · simp [getProp, hnm] at hg
            have hrec : ∀ tp2 : JProps, getProp tp2 k = getProp tp k →
                propOf (mergeObjectsFuel n (JSON.obj tp2) tl) k = some v := by
              intro tp2 h2
              exact mergeFuel_keepObj tl n tp2 k v fv hu.2 (by omega)
                (by rw [h2]; exact htp) hv hg hf
            by_cases h1 : isObjTypeOpt (jsGetProp (JSON.obj tp) nm) = true
            · simp only [h1, Bool.not_true, Bool.false_eq_true, if_false]
              by_cases h2 : isObjType fv0 = true
              · simp only [h2, if_true]
                rw [show jsSetProp (JSON.obj tp) nm _ = JSON.obj (setKey tp nm _) from rfl]
                exact hrec _ (getProp_setKey_ne tp nm k _ (fun hh => hnm hh.symm))
              · simp only [h2, if_false]
                exact hrec tp rfl
            · simp only [h1]
              simp only [Bool.not_eq_true] at h1
              simp only [h1, Bool.not_false, if_true]
              rw [show jsSetProp (JSON.obj tp) nm fv0 = JSON.obj (setKey tp nm fv0) from rfl]
              exact hrec _ (getProp_setKey_ne tp nm k fv0 (fun hh => hnm hh.symm))

/-- The merge never deletes a key of the target. -/
theorem mergeFuel_presence : ∀ (fp : JProps) (n : Nat) (tp : JProps) (k : String),
    hasProp tp k = true →
    (propOf (mergeObjectsFuel n (JSON.obj tp) fp) k).isSome = true
  | JProps.nil, n, tp, k, h => by
      cases n <;> simp [mergeObjectsFuel, propOf, ← hasProp_getProp, h]
  | JProps.cons nm fv tl, n, tp, k, h => by
      cases n with
      | zero => simp [mergeObjectsFuel, propOf, ← hasProp_getProp, h]
      | succ n =>
          simp only [mergeObjectsFuel]
          by_cases h1 : isObjTypeOpt (jsGetProp (JSON.obj tp) nm) = true
          · simp only [h1, Bool.not_true, Bool.false_eq_true, if_false]
            by_cases h2 : isObjType fv = true
            · simp only [h2, if_true]
              rw [show jsSetProp (JSON.obj tp) nm _ = JSON.obj (setKey tp nm _) from rfl]
              exact mergeFuel_presence tl n _ k (hasProp_setKey_of tp k nm _ h)
            · simp only [h2, if_false]
              exact mergeFuel_presence tl n tp k h
          · simp only [h1]
            simp only [Bool.not_eq_true] at h1
            simp only [h1, Bool.not_false, if_true]
            rw [show jsSetProp (JSON.obj tp) nm fv = JSON.obj (setKey tp nm fv) from rfl]
            exact mergeFuel_presence tl n _ k (hasProp_setKey_of tp k nm fv h)

theorem jweight_pos : ∀ v : JSON, 1 ≤ jweight v := by
  intro v
  cases v <;> simp [jweight]

theorem plength_le_jweightP : ∀ p : JProps, plength p ≤ jweightP p
  | JProps.nil => by simp [plength, jweightP]
  | JProps.cons k v tl => by
      have h1 := plength_le_jweightP tl
      have h2 := jweight_pos v
      simp [plength, jweightP]
      omega

/-- The wrapper fuel reaches every property of an object merge source. -/
theorem mergeObjects_obj (tp fp : JProps) :
    mergeObjects (JSON.obj tp) (JSON.obj fp)
      = mergeObjectsFuel (jweightP fp + 1) (JSON.obj tp) fp := rfl

/-- Unfolding of the import resolution at a node bearing a resolvable
$import (process.mjs lines 56-75): the reference is deleted and the
stripped clone of the located target is merged into the node, which is
returned without recursing into it. -/
theorem processImports_resolved (schema : JSON) (props : JProps) (target : JSON)
    (h1 : hasProp props "$import" = true)
    (h2 : importIdOf props ≠ "ManifestBase")
    (h3 : getNestedIdOrNamespace schema (importIdOf props) = some target) :
    processImports schema (JSON.obj props)
      = mergeObjects (JSON.obj (delKey props "$import")) (stripImported target) := by
  show processImportsFuel schema (depthP props + 1) (JSON.obj props) = _
  simp [processImportsFuel, h1, h2, h3]

theorem hasKeyDeepP_hasProp (s : String) : ∀ p : JProps,
    hasKeyDeepP s p = false → hasProp p s = false
  | JProps.nil, _ => by simp [hasProp]
  | JProps.cons k v tl, h => by
      simp [hasKeyDeepP] at h
      simp [hasProp, h.1.1, hasKeyDeepP_hasProp s tl (by simp [h.2])]

theorem jmapClean_id (s : String) (f : JSON → JSON)
    (hf : ∀ x, hasKeyDeep s x = false → f x = x) : ∀ l : JList,
    hasKeyDeepL s l = false → jmap f l = l
  | JList.nil, _ => rfl
  | JList.cons x tl, h => by
      simp [hasKeyDeepL] at h
      rw [jmap, hf x (by simp [h.1]), jmapClean_id s f hf tl (by simp [h.2])]

theorem jmapPropsClean_id (s : String) (f : JSON → JSON)
    (hf : ∀ x, hasKeyDeep s x = false → f x = x) : ∀ p : JProps,
    hasKeyDeepP s p = false → jmapProps f p = p
  | JProps.nil, _ => rfl
  | JProps.cons k v tl, h => by
      simp [hasKeyDeepP] at h
      rw [jmapProps, hf v (by simp [h.1.2]), jmapPropsClean_id s f hf tl (by simp [h.2])]

/-- On a tree containing no $import anywhere, the argument of
processImports is left unchanged (for any fuel). -/
theorem argAfterImportsFuel_clean (schema : JSON) : ∀ (n : Nat) (v : JSON),
    hasKeyDeep "$import" v = false → argAfterImportsFuel schema n v = v
  | 0, v, _ => rfl
  | Nat.succ n, v, h => by
      cases v with
      | arr l =>
          simp only [argAfterImportsFuel]
          rw [jmapClean_id "$import" _
            (fun x hx => argAfterImportsFuel_clean schema n x hx) l
            (by simpa [hasKeyDeep] using h)]
      | obj props =>
          have hp : hasKeyDeepP "$import" props = false := by
            simpa [hasKeyDeep] using h
          have hno : hasProp props "$import" = false := hasKeyDeepP_hasProp _ props hp
          simp only [argAfterImportsFuel, hno, Bool.false_eq_true, if_false]
          rw [jmapPropsClean_id "$import" _
            (fun x hx => argAfterImportsFuel_clean schema n x hx) props hp]
      | null => rfl
      | bool b => rfl
      | num x => rfl
      | str t => rfl

theorem argAfterImports_clean (schema v : JSON)
    (h : hasKeyDeep "$import" v = false) : argAfterImports schema v = v :=
  argAfterImportsFuel_clean schema (depth v) v h

theorem getProp_insertPropSorted_ne : ∀ (acc : JProps) (k0 k : String) (v0 : JSON),
    k ≠ k0 → getProp (insertPropSorted k0 v0 acc) k = getProp acc k
  | JProps.nil, k0, k, v0, h => by
      have hk : ¬(k0 = k) := fun hh => h hh.symm
      simp [insertPropSorted, getProp, hk]
  | JProps.cons k2 v2 tl, k0, k, v0, h => by
      by_cases hle : strLeB k2 k0 = true
      · simp [insertPropSorted, hle, getProp, getProp_insertPropSorted_ne tl k0 k v0 h]
      · have hk : ¬(k0 = k) := fun hh => h hh.symm
        simp [insertPropSorted, hle, getProp, hk]

theorem getProp_insertPropSorted_absent : ∀ (acc : JProps) (k0 : String) (v0 : JSON),
    hasProp acc k0 = false → getProp (insertPropSorted k0 v0 acc) k0 = some v0
  | JProps.nil, k0, v0, _ => by simp [insertPropSorted, getProp]
  | JProps.cons k2 v2 tl, k0, v0, h => by
      simp [hasProp] at h
      by_cases hle : strLeB k2 k0 = true
      · simp [insertPropSorted, hle, getProp, h.1,
          getProp_insertPropSorted_absent tl k0 v0 (by simp [h.2])]
      · simp [insertPropSorted, hle, getProp]

theorem hasProp_insertPropSorted : ∀ (acc : JProps) (k0 j : String) (v0 : JSON),
    hasProp (insertPropSorted k0 v0 acc) j = (k0 = j || hasProp acc j)
  | JProps.nil, k0, j, v0 => by simp [insertPropSorted, hasProp]
  | JProps.cons k2 v2 tl, k0, j, v0 => by
      by_cases hle : strLeB k2 k0 = true
      · simp only [insertPropSorted, hle, if_true, hasProp,
          hasProp_insertPropSorted tl k0 j v0]
        by_cases h1 : k2 = j <;> by_cases h2 : k0 = j <;> simp [h1, h2]
      · simp [insertPropSorted, hle, hasProp]

theorem getProp_sortPropsAux : ∀ (q acc : JProps) (k : String), uniqKeysB q = true →
    (∀ j, hasProp acc j = true → hasProp q j = false) →
    getProp (sortPropsAux acc q)
        k = (match getProp acc k with
             | some w => some w
             | none => getProp q k)
  | JProps.nil, acc, k, _, _ => by
      cases h : getProp acc k <;> simp [sortPropsAux, h, getProp]
  | JProps.cons k0 v0 tl, acc, k, hu, hd => by
      simp [uniqKeysB] at hu
      have hk0acc : hasProp acc k0 = false := by
        by_cases hh : hasProp acc k0 = true
        · have := hd k0 hh
          simp [hasProp] at this
        · simpa using hh
      have hd2 : ∀ j, hasProp (insertPropSorted k0 v0 acc) j = true →
          hasProp tl j = false := by
        intro j hj
        rw [hasProp_insertPropSorted] at hj
        simp at hj
        rcases hj with hj | hj
        · subst hj
          simpa using hu.1
        · have := hd j hj
          simp [hasProp] at this
          simp [this.2]
      have ih := getProp_sortPropsAux tl (insertPropSorted k0 v0 acc) k hu.2 hd2
      rw [sortPropsAux, ih]
      by_cases hk : k0 = k
      · subst hk
        rw [getProp_insertPropSorted_absent acc k0 v0 hk0acc]
        have hnone : getProp acc k0 = none := by
          rw [hasProp_getProp] at hk0acc
          cases h : getProp acc k0
          · rfl
          · rw [h] at hk0acc; simp at hk0acc
        rw [hnone]
        simp [getProp]
      · rw [getProp_insertPropSorted_ne acc k0 k v0 (fun hh => hk hh.symm)]
        cases ha : getProp acc k <;> simp [getProp, hk, ha]

theorem getProp_sortPropsByKey (q : JProps) (k : String) (hu : uniqKeysB q = true) :
    getProp (sortPropsByKey q) k = getProp q k := by
  have h := getProp_sortPropsAux q JProps.nil k hu (by intro j hj; simp [hasProp] at hj)
  simpa [sortPropsByKey, getProp] using h

theorem getProp_sortKeysP : ∀ (q : JProps) (k : String),
    getProp (sortKeysP q) k = (getProp q k).map sortKeys
  | JProps.nil, _ => by simp [sortKeysP, getProp]
  | JProps.cons k2 v tl, k => by
      by_cases h : k2 = k <;> simp [sortKeysP, getProp, h, getProp_sortKeysP tl k]

theorem hasProp_sortKeysP : ∀ (q : JProps) (k : String),
    hasProp (sortKeysP q) k = hasProp q k
  | JProps.nil, _ => by simp [sortKeysP]
  | JProps.cons k2 v tl, k => by
      simp [sortKeysP, hasProp, hasProp_sortKeysP tl k]

theorem uniqKeysB_sortKeysP : ∀ q : JProps, uniqKeysB (sortKeysP q) = uniqKeysB q
  | JProps.nil => rfl
  | JProps.cons k v tl => by
      simp [sortKeysP, uniqKeysB, hasProp_sortKeysP, uniqKeysB_sortKeysP tl]

theorem jget_sortKeysL : ∀ (l : JList) (i : Nat),
    jget (sortKeysL l) i = (jget l i).map sortKeys
  | JList.nil, _ => by simp [sortKeysL, jget]
  | JList.cons x tl, 0 => by simp [sortKeysL, jget]
  | JList.cons x tl, Nat.succ i => by simp [sortKeysL, jget, jget_sortKeysL tl i]

mutual

/-- Every object in the tree has pairwise distinct keys (true of every
parsed JSON value; JavaScript objects cannot carry duplicate keys). -/
def uniqDeep : JSON → Bool
  | JSON.arr l => uniqDeepL l
  | JSON.obj p => uniqKeysB p && uniqDeepP p
  | _ => true

def uniqDeepL : JList → Bool
  | JList.nil => true
  | JList.cons v tl => uniqDeep v && uniqDeepL tl

def uniqDeepP : JProps → Bool
  | JProps.nil => true
  | JProps.cons _ v tl => uniqDeep v && uniqDeepP tl

end

theorem uniqDeepP_getProp : ∀ (p : JProps) (k : String) (w : JSON),
    uniqDeepP p = true → getProp p k = some w → uniqDeep w = true
  | JProps.nil, _, _, _, hg => by simp [getProp] at hg
  | JProps.cons k2 v tl, k, w, hu, hg => by
      simp [uniqDeepP] at hu
      by_cases h : k2 = k
      · simp [getProp, h] at hg
        subst hg
        exact hu.1
      · simp [getProp, h] at hg
        exact uniqDeepP_getProp tl k w hu.2 hg

theorem uniqDeepL_jget : ∀ (l : JList) (i : Nat) (w : JSON),
    uniqDeepL l = true → jget l i = some w → uniqDeep w = true
  | JList.nil, _, _, _, hg => by simp [jget] at hg
  | JList.cons x tl, 0, w, hu, hg => by
      simp [jget] at hg
      subst hg
      simp [uniqDeepL] at hu
      exact hu.1
  | JList.cons x tl, Nat.succ i, w, hu, hg => by
      simp [uniqDeepL] at hu
      exact uniqDeepL_jget tl i w hu.2 (by simpa [jget] using hg)

/-- sortKeys relocates nothing: every access path reaches in the sorted
tree exactly the sortKeys image of what it reached in the input. -/
theorem getAtPath_sortKeys : ∀ (path : List PathStep) (v : JSON), uniqDeep v = true →
    getAtPath (sortKeys v) path = (getAtPath v path).map sortKeys
  | [], v, _ => by cases v <;> rfl
  | PathStep.idx i :: p, v, hu => by
      cases v with
      | arr l =>
          show getAtPath (JSON.arr (sortKeysL l)) _ = _
          simp only [getAtPath, jget_sortKeysL]
          cases hj : jget l i with
          | none => simp
          | some w =>
              simp only [Option.map_some]
              exact getAtPath_sortKeys p w
                (uniqDeepL_jget l i w (by simpa [uniqDeep] using hu) hj)
      | obj q => rfl
      | null => rfl
      | bool b => rfl
      | num x => rfl
      | str t => rfl
  | PathStep.key k :: p, v, hu => by
      cases v with
      | obj q =>
          simp [uniqDeep] at hu
          show getAtPath (JSON.obj (sortPropsByKey (sortKeysP q))) _ = _
          simp only [getAtPath]
          rw [getProp_sortPropsByKey (sortKeysP q) k
            (by rw [uniqKeysB_sortKeysP]; exact hu.1)]
          rw [getProp_sortKeysP]
          cases hg : getProp q k with
          | none => simp
          | some w =>
              simp only [Option.map_some]
              exact getAtPath_sortKeys p w (uniqDeepP_getProp q k w hu.2 hg)
      | arr l => rfl
      | null => rfl
      | bool b => rfl
      | num x => rfl
      | str t => rfl

theorem extractScanTB_none_iff (t : String → Bool) (vA : String → String)
    (entries : List String) : ∀ i : Nat,
    (extractScanTB t vA entries i = none
      ↔ ∀ j, j < i → ∀ r, entries[j]? = some r → t r = false)
  | 0 => by simp [extractScanTB]
  | Nat.succ i => by
      have ih := extractScanTB_none_iff t vA entries i
      cases he : entries[i]? with
      | some r =>
          by_cases ht : t r = true
          · simp [extractScanTB, he, ht]
            exact ⟨i, by omega, r, he, ht⟩
          · simp at ht
            simp [extractScanTB, he, ht, ih]
            constructor
            · intro h j hj r2 hr2
              by_cases hji : j = i
              · subst hji
                rw [he] at hr2
                cases hr2
                exact ht
              · exact h j (by omega) r2 hr2
            · intro h j hj r2 hr2
              exact h j (by omega) r2 hr2
      | none =>
          simp [extractScanTB, he, ih]
          constructor
          · intro h j hj r2 hr2
            by_cases hji : j = i
            · subst hji
              rw [he] at hr2
              cases hr2
            · exact h j (by omega) r2 hr2
          · intro h j hj r2 hr2
            exact h j (by omega) r2 hr2

theorem extractScanTB_found (t : String → Bool) (vA : String → String)
    (entries : List String) : ∀ (i : Nat) (vs : String),
    extractScanTB t vA entries i = some vs →
    ∃ j, j < i ∧ ∃ r, entries[j]? = some r ∧ t r = true ∧
      vs = majorVersionOf (vA r) ∧
      (∀ j2, j < j2 → j2 < i → ∀ r2, entries[j2]? = some r2 → t r2 = false)
  | 0, vs, h => by simp [extractScanTB] at h
  | Nat.succ i, vs, h => by
      cases he : entries[i]? with
      | some r =>
          by_cases ht : t r = true
          · simp [extractScanTB, he, ht] at h
            exact ⟨i, by omega, r, he, ht, h.symm, by intro j2 h1 h2; omega⟩
          · simp at ht
            simp [extractScanTB, he, ht] at h
            obtain ⟨j, hj, r2, hr2, htr2, hvs, hlater⟩ :=
              extractScanTB_found t vA entries i vs h
            refine ⟨j, by omega, r2, hr2, htr2, hvs, ?_⟩
            intro j2 h1 h2 r3 hr3
            by_cases hji : j2 = i
            · subst hji
              rw [he] at hr3
              cases hr3
              exact ht
            · exact hlater j2 h1 (by omega) r3 hr3
      | none =>
          simp [extractScanTB, he] at h
          obtain ⟨j, hj, r2, hr2, htr2, hvs, hlater⟩ :=
            extractScanTB_found t vA entries i vs h
          refine ⟨j, by omega, r2, hr2, htr2, hvs, ?_⟩
          intro j2 h1 h2 r3 hr3
          by_cases hji : j2 = i
          · subst hji
            rw [he] at hr3
            cases hr3
          · exact hlater j2 h1 (by omega) r3 hr3

theorem getqMem : ∀ (l : List String) (j : Nat) (r : String), l[j]? = some r → r ∈ l
  | [], j, r, h => by simp at h
  | a :: tl, 0, r, h => by
      simp at h
      simp [h]
  | a :: tl, Nat.succ j, r, h => by
      have := getqMem tl j r (by simpa using h)
      simp [this]

theorem getqRev : ∀ (l : List String) (r : String), r ∈ l →
    ∃ j, j < l.length ∧ l[j]? = some r
  | [], r, h => by simp at h
  | a :: tl, r, h => by
      rcases List.mem_cons.mp h with h | h
      · exact ⟨0, by simp, by simp [h]⟩
      · obtain ⟨j, hj, hjq⟩ := getqRev tl r h
        exact ⟨j + 1, by simpa using hj, by simpa using hjq⟩

/-- Intermediate-value pick written from the words of the spec (C6): the
Thunderbird override wins exactly when it parses as an integer and the
Firefox value is true, non-numeric, or numerically smaller. -/
def specTbOverrideWins (tv fv : JSON) : Bool :=
  (jsParseInt tv).isSome &&
    (decide (fv = JSON.bool true) || !(jsParseInt fv).isSome ||
      decide (((jsParseInt fv).getD 0) < ((jsParseInt tv).getD 0)))

theorem pickBcd_eq_spec (tv fv : JSON) :
    pickBcdVersionValue tv fv = (if specTbOverrideWins tv fv then tv else fv) := by
  unfold pickBcdVersionValue specTbOverrideWins
  cases htv : jsParseInt tv with
  | none => simp
  | some t =>
      by_cases hb : fv = JSON.bool true
      · simp [hb]
      · cases hfv : jsParseInt fv with
        | none => simp [hb, hfv]
        | some f =>
            simp only [hb, if_false, hfv, Option.isSome_some, Option.getD_some,
              Bool.true_and, decide_eq_true_eq]
            by_cases hlt : f < t
            · simp [hlt, hb]
            · simp [hlt, hb]

/-- Every parameter object carries a string name. -/
def allStringNames : JList → Bool
  | JList.nil => true
  | JList.cons e tl =>
      (match propOf e "name" with
       | some (JSON.str _) => true
       | _ => false) && allStringNames tl

/-- The names of the parameters, in order (spec wording for C8). -/
def paramNamesOf : JList → List String
  | JList.nil => []
  | JList.cons e tl =>
      (match propOf e "name" with
       | some (JSON.str s) => s
       | _ => "") :: paramNamesOf tl

theorem anchorParts_eq_names : ∀ l : JList, allStringNames l = true →
    anchorParamParts l
      = (paramNamesOf l).filter (fun s => decide ¬(s = "callback"))
  | JList.nil, _ => rfl
  | JList.cons e tl, h => by
      simp only [allStringNames, Bool.and_eq_true] at h
      cases hn : propOf e "name" with
      | none => rw [hn] at h; simp at h
      | some x =>
          cases x with
          | str s =>
              rw [anchorParamParts, paramNamesOf, hn]
              by_cases hs : s = "callback"
              · subst hs
                simp [List.filter, anchorParts_eq_names tl h.2]
              · have hne : ¬(some (JSON.str s) = some (JSON.str "callback")) := by
                  simp [hs]
                simp only [hne, if_neg, List.filter, hs, decide_not]
                simp [jsToString, anchorParts_eq_names tl h.2, hs]
          | null => rw [hn] at h; simp at h
          | bool b => rw [hn] at h; simp at h
          | num n => rw [hn] at h; simp at h
          | arr a => rw [hn] at h; simp at h
          | obj p => rw [hn] at h; simp at h

/-- The anchor of an entry whose parameters all carry string names is the
entry name and the non-callback parameter names, hyphen-joined and
lowercased. -/
theorem docAnchorOf_eq (entryName : String) (value : JSON) (l : JList)
    (hp : propOf value "parameters" = some (JSON.arr l))
    (hn : allStringNames l = true) :
    docAnchorOf entryName value
      = toLowerStr (joinDash (entryName ::
          (paramNamesOf l).filter (fun s => decide ¬(s = "callback")))) := by
  have h2 := anchorParts_eq_names l hn
  simp [docAnchorOf, hp, h2]

theorem exMap_nf {α β : Type} (f : α → β) : ∀ x : Except MergeErr α,
    x ≠ Except.error MergeErr.fuelOut → x.map f ≠ Except.error MergeErr.fuelOut
  | Except.ok a, _ => by simp [Except.map]
  | Except.error e, h => by simpa [Except.map] using h

theorem exBind_nf {α β : Type} (g : α → Except MergeErr β) : ∀ x : Except MergeErr α,
    x ≠ Except.error MergeErr.fuelOut →
    (∀ a, x = Except.ok a → g a ≠ Except.error MergeErr.fuelOut) →
    x.bind g ≠ Except.error MergeErr.fuelOut
  | Except.ok a, _, hg => by simpa [Except.bind] using hg a rfl
  | Except.error e, h, _ => by simpa [Except.bind] using h

theorem expandEnumProps_nf (rf : String → String) : ∀ p : JProps,
    expandEnumProps rf p ≠ Except.error MergeErr.fuelOut
  | JProps.nil => by simp [expandEnumProps]
  | JProps.cons k ev tl => by
      have ih := expandEnumProps_nf rf tl
      cases ev with
      | null => simp [expandEnumProps]
      | obj evp =>
          rw [expandEnumProps]
          cases hg : getProp evp "annotations" with
          | none => exact exMap_nf _ _ ih
          | some w =>
              cases w with
              | arr l => exact exMap_nf _ _ ih
              | str s =>
                  by_cases ht : truthy (JSON.str s) = true <;>
                    simp [ht, exMap_nf _ _ ih]
              | null => simp [truthy, exMap_nf _ _ ih]
              | bool b =>
                  by_cases ht : truthy (JSON.bool b) = true <;> simp [ht, exMap_nf _ _ ih]
              | num n =>
                  by_cases ht : truthy (JSON.num n) = true <;> simp [ht, exMap_nf _ _ ih]
              | obj p2 =>
                  simp [truthy]
      | bool b => simp [expandEnumProps, exMap_nf _ _ ih]
      | num n => simp [expandEnumProps, exMap_nf _ _ ih]
      | str s => simp [expandEnumProps, exMap_nf _ _ ih]
      | arr l => simp [expandEnumProps, exMap_nf _ _ ih]

theorem expandNewKey_nf (rf : String → String) (k : String) (av : JSON) :
    expandNewKey rf k av ≠ Except.error MergeErr.fuelOut := by
  unfold expandNewKey
  by_cases h1 : k = "annotations"
  · simp only [h1, if_true]
    cases av <;> simp
  · by_cases h2 : k = "enums"
    · simp only [h1, if_false, h2, if_true]
      cases av <;> simp [exMap_nf _ _ (expandEnumProps_nf rf _)]
    · simp [h1, h2]

theorem mergePairsGen_nf (f : JSON → JSON → Except MergeErr JSON) (B : Nat)
    (hf : ∀ x y, depth y + 1 ≤ B → f x y ≠ Except.error MergeErr.fuelOut) :
    ∀ (al sl : JList), depthL al + 1 ≤ B →
    mergePairsGen f sl al ≠ Except.error MergeErr.fuelOut
  | JList.nil, sl, _ => by cases sl <;> simp [mergePairsGen]
  | JList.cons a atl, JList.nil, _ => by simp [mergePairsGen]
  | JList.cons a atl, JList.cons s stl, h => by
      have hd : depth a + 1 ≤ B := by
        simp [depthL] at h
        omega
      have hd2 : depthL atl + 1 ≤ B := by
        simp [depthL] at h
        omega
      rw [mergePairsGen]
      refine exBind_nf _ _ (hf s a hd) ?_
      intro s2 _
      exact exMap_nf _ _ (mergePairsGen_nf f B hf atl stl hd2)

theorem mergeMatchedGen_nf (f : JSON → JSON → Except MergeErr JSON) (B : Nat)
    (hf : ∀ x y, depth y + 1 ≤ B → f x y ≠ Except.error MergeErr.fuelOut) :
    ∀ (sl : JList) (aEntry : JSON), depth aEntry + 1 ≤ B →
    mergeMatchedGen f sl aEntry ≠ Except.error MergeErr.fuelOut
  | JList.nil, _, _ => by simp [mergeMatchedGen]
  | JList.cons e tl, aEntry, h => by
      rw [mergeMatchedGen]
      by_cases hm : annEntryMatches aEntry e = true
      · rw [if_pos hm]
        refine exBind_nf _ _ (hf e aEntry h) ?_
        intro e2 _
        exact exMap_nf _ _ (mergeMatchedGen_nf f B hf tl aEntry h)
      · rw [if_neg hm]
        exact exMap_nf _ _ (mergeMatchedGen_nf f B hf tl aEntry h)

theorem mergeArrGen_nf (f : JSON → JSON → Except MergeErr JSON) (B : Nat)
    (hf : ∀ x y, depth y + 1 ≤ B → f x y ≠ Except.error MergeErr.fuelOut) :
    ∀ (al sl : JList), depthL al + 1 ≤ B →
    mergeArrGen f sl al ≠ Except.error MergeErr.fuelOut
  | JList.nil, sl, _ => by simp [mergeArrGen]
  | JList.cons aEntry atl, sl, h => by
      have hd : depth aEntry + 1 ≤ B := by
        simp [depthL] at h
        omega
      have hd2 : depthL atl + 1 ≤ B := by
        simp [depthL] at h
        omega
      rw [mergeArrGen]
      by_cases hm : jany (annEntryMatches aEntry) sl = true
      · rw [if_pos hm]
        refine exBind_nf _ _ (mergeMatchedGen_nf f B hf sl aEntry hd) ?_
        intro sl2 _
        exact mergeArrGen_nf f B hf atl sl2 hd2
      · rw [if_neg hm]
        simp

theorem mergeObjGen_nf (f : JSON → JSON → Except MergeErr JSON)
    (rf : String → String) (B : Nat)
    (hf : ∀ x y, depth y + 1 ≤ B → f x y ≠ Except.error MergeErr.fuelOut) :
    ∀ (ap sp : JProps), depthP ap + 1 ≤ B →
    mergeObjGen f rf sp ap ≠ Except.error MergeErr.fuelOut
  | JProps.nil, sp, _ => by simp [mergeObjGen]
  | JProps.cons k av atl, sp, h => by
      have hd : depth av + 1 ≤ B := by
        simp [depthP] at h
        omega
      have hd2 : depthP atl + 1 ≤ B := by
        simp [depthP] at h
        omega
      rw [mergeObjGen]
      refine exBind_nf _ _ ?_ ?_
      · by_cases h1 : truthyOpt (getProp sp k) = true
        · simp only [h1, Bool.not_true, Bool.false_eq_true, if_false]
          by_cases h2 : k = "choices"
          · simp only [h2, if_true]
            by_cases h3 : jsLengthOpt ((getProp sp "choices").getD JSON.null)
                ≠ jsLengthOpt av
            · rw [if_pos h3]
              simp
            · rw [if_neg h3]
              cases hsv : (getProp sp "choices").getD JSON.null with
              | arr sl =>
                  cases av with
                  | arr al =>
                      refine exMap_nf _ _ ?_
                      apply mergePairsGen_nf f B hf al sl
                      have : depth (JSON.arr al) = depthL al + 1 := rfl
                      omega
                  | null => simp
                  | bool b => simp
                  | num n => simp
                  | str s => simp
                  | obj p2 => simp
              | null => cases av <;> simp
              | bool b => cases av <;> simp
              | num n => cases av <;> simp
              | str s => cases av <;> simp
              | obj p2 => cases av <;> simp
          · simp only [h2, if_false]
            exact exMap_nf _ _ (hf _ av hd)
        · simp only [Bool.not_eq_true] at h1
          simp only [h1, Bool.not_false, if_true]
          exact exMap_nf _ _ (expandNewKey_nf rf k av)
      · intro sp2 _
        exact mergeObjGen_nf f rf B hf atl sp2 hd2

/-- With fuel above the nesting depth of the annotation the fuel marker is
never reached. -/
theorem mergeAnnFuel_nf (rf : String → String) : ∀ (n : Nat) (s a : JSON),
    depth a + 1 ≤ n → mergeAnnFuel rf n s a ≠ Except.error MergeErr.fuelOut
  | 0, _, a, h => by
      have := depth_pos a
      omega
  | Nat.succ n, s, a, h => by
      have hfn : ∀ x y, depth y + 1 ≤ depth a → mergeAnnFuel rf n x y
          ≠ Except.error MergeErr.fuelOut := by
        intro x y hy
        exact mergeAnnFuel_nf rf n x y (by omega)
      cases a with
      | arr al =>
          cases s with
          | arr sl =>
              simp only [mergeAnnFuel]
              rw [if_neg (by simp [jsTypeof, isArrB])]
              exact exMap_nf _ _
                (mergeArrGen_nf _ (depth (JSON.arr al)) hfn al sl (le_refl _))
          | null => simp only [mergeAnnFuel]; split <;> simp
          | bool b => simp only [mergeAnnFuel]; split <;> simp
          | num x => simp only [mergeAnnFuel]; split <;> simp
          | str t => simp only [mergeAnnFuel]; split <;> simp
          | obj p => simp only [mergeAnnFuel]; split <;> simp
      | obj ap =>
          cases s with
          | obj sp =>
              simp only [mergeAnnFuel]
              rw [if_neg (by simp [jsTypeof, isArrB])]
              exact exMap_nf _ _
                (mergeObjGen_nf _ rf (depth (JSON.obj ap)) hfn ap sp (le_refl _))
          | null => simp only [mergeAnnFuel]; split <;> simp
          | bool b => simp only [mergeAnnFuel]; split <;> simp
          | num x => simp only [mergeAnnFuel]; split <;> simp
          | str t => simp only [mergeAnnFuel]; split <;> simp
          | arr l => simp only [mergeAnnFuel]; split <;> simp
      | null => cases s <;> (simp only [mergeAnnFuel]; split <;> simp)
      | bool b => cases s <;> (simp only [mergeAnnFuel]; split <;> simp)
      | num x => cases s <;> (simp only [mergeAnnFuel]; split <;> simp)
      | str t => cases s <;> (simp only [mergeAnnFuel]; split <;> simp)

/-- Every key of the annotation object is new to the schema object: falsy
(in particular absent) on the schema side as assignments accumulate, and
not one of the keys the merger expands. -/
def freshKeysB : JProps → JProps → Bool
  | _, JProps.nil => true
  | sp, JProps.cons k av atl =>
      !truthyOpt (getProp sp k) && decide ¬(k = "annotations")
        && decide ¬(k = "enums") && freshKeysB (setKey sp k av) atl

theorem mergeObjGen_fresh (f : JSON → JSON → Except MergeErr JSON)
    (rf : String → String) : ∀ (ap sp : JProps), freshKeysB sp ap = true →
    mergeObjGen f rf sp ap = Except.ok (objAssign sp ap)
  | JProps.nil, sp, _ => by simp [mergeObjGen, objAssign]
  | JProps.cons k av atl, sp, h => by
      simp only [freshKeysB, Bool.and_eq_true, decide_eq_true_eq] at h
      obtain ⟨⟨⟨h1, h2⟩, h3⟩, h4⟩ := h
      rw [mergeObjGen]
      simp only [h1, Bool.not_false, if_true]
      rw [show expandNewKey rf k av = Except.ok av by
        unfold expandNewKey
        rw [if_neg h2, if_neg h3]]
      rw [show (Except.ok av).map (fun av2 => setKey sp k av2)
          = Except.ok (setKey sp k av) from rfl]
      rw [show (Except.ok (setKey sp k av)).bind
            (fun sp2 => mergeObjGen f rf sp2 atl)
          = mergeObjGen f rf (setKey sp k av) atl from rfl]
      rw [mergeObjGen_fresh f rf atl (setKey sp k av) h4]
      rfl

theorem jlength_sortKeysL : ∀ l : JList, jlength (sortKeysL l) = jlength l
  | JList.nil => rfl
  | JList.cons v tl => by simp [sortKeysL, jlength, jlength_sortKeysL tl]

/-- The legacy generator gates both the enum merge and the single-choice
inlining on the filter having removed an entry: with the original length
intact it always keeps the choices wrapper. -/
theorem legacyChoicesCase_nofilter (v : JList) (o : JProps) :
    legacyChoicesCase (jlength v) v o = setKey o "choices" (JSON.arr v) := by
  unfold legacyChoicesCase
  simp

/-- On a tree containing no $import anywhere the resolver returns its input
unchanged (for any fuel). -/
theorem processImportsFuel_clean (schema : JSON) : ∀ (n : Nat) (v : JSON),
    hasKeyDeep "$import" v = false → processImportsFuel schema n v = v
  | 0, v, _ => rfl
  | Nat.succ n, v, h => by
      cases v with
      | arr l =>
          simp only [processImportsFuel]
          rw [jmapClean_id "$import" _
            (fun x hx => processImportsFuel_clean schema n x hx) l
            (by simpa [hasKeyDeep] using h)]
      | obj props =>
          have hp : hasKeyDeepP "$import" props = false := by
            simpa [hasKeyDeep] using h
          have hno : hasProp props "$import" = false := hasKeyDeepP_hasProp _ props hp
          simp only [processImportsFuel, hno, Bool.false_eq_true, if_false]
          rw [jmapPropsClean_id "$import" _
            (fun x hx => processImportsFuel_clean schema n x hx) props hp]
      | null => rfl
      | bool b => rfl
      | num x => rfl
      | str t => rfl

theorem processImports_clean (schema v : JSON)
    (h : hasKeyDeep "$import" v = false) : processImports schema v = v :=
  processImportsFuel_clean schema (depth v) v h

/-- A typeof or array-ness difference makes the merger abort at once. -/
theorem mergeAnnFuel_mismatch (rf : String → String) (n : Nat) (s a : JSON)
    (h : ¬(jsTypeof s = jsTypeof a ∧ isArrB s = isArrB a)) :
    mergeAnnFuel rf (n + 1) s a = Except.error MergeErr.typeMismatch := by
  have hb : (jsTypeof s ≠ jsTypeof a || isArrB s ≠ isArrB a) = true := by
    simp only [Bool.or_eq_true, decide_eq_true_eq]
    tauto
  cases a <;> (simp only [mergeAnnFuel]; rw [if_pos hb])

theorem mergeAnn_unmatched (rf : String → String) (n : Nat) (sl : JList)
    (aEntry : JSON) (atl : JList) (h : jany (annEntryMatches aEntry) sl = false) :
    mergeAnnFuel rf (n + 1) (JSON.arr sl) (JSON.arr (JList.cons aEntry atl))
      = Except.error MergeErr.unmatchedEntry := by
  simp only [mergeAnnFuel]
  rw [if_neg (by simp [jsTypeof, isArrB])]
  rw [mergeArrGen, if_neg (by simp [h])]
  rfl

theorem mergeAnn_choicesLen (rf : String → String) (n : Nat) (sp : JProps)
    (av : JSON) (atl : JProps)
    (h1 : truthyOpt (getProp sp "choices") = true)
    (h2 : jsLengthOpt ((getProp sp "choices").getD JSON.null) ≠ jsLengthOpt av) :
    mergeAnnFuel rf (n + 1) (JSON.obj sp) (JSON.obj (JProps.cons "choices" av atl))
      = Except.error MergeErr.choicesLen := by
  simp only [mergeAnnFuel]
  rw [if_neg (by simp [jsTypeof, isArrB])]
  rw [mergeObjGen]
  rw [show (!truthyOpt (getProp sp "choices")) = false by simp [h1]]
  simp only [Bool.false_eq_true, if_false, if_pos rfl]
  rw [if_pos h2]
  rfl

theorem mergeAnn_freshOk (rf : String → String) (n : Nat) (sp ap : JProps)
    (h : freshKeysB sp ap = true) :
    mergeAnnFuel rf (n + 1) (JSON.obj sp) (JSON.obj ap)
      = Except.ok (JSON.obj (objAssign sp ap)) := by
  simp only [mergeAnnFuel]
  rw [if_neg (by simp [jsTypeof, isArrB])]
  rw [mergeObjGen_fresh (mergeAnnFuel rf n) rf ap sp h]
  rfl

/-- C1: processSchema applies the version filter at every array node and
every object node; for nodes with nonzero numeral bounds a node survives
exactly when the wording of the spec retains it — no min_manifest_version
or one at most the requested version, and no max_manifest_version or one
at least it — and filtering the scenario array at manifest version 3 keeps
exactly its first two entries in their original order. -/
theorem claim_C1 :
    (∀ (mv : Int) (x : JSON), versionFieldsNumeric x = true →
        (isInVersionRange mv x = true ↔ specRetained mv x = true)) ∧
    (∀ (mv : Int) (l : JList), allNumericBounds l = true →
        filterRange mv l = specFilterRange mv l) ∧
    (∀ (mv : Int) (p : JProps), allNumericBoundsP p = true →
        filterProps mv p = specFilterProps mv p) ∧
    (∀ (cfg : Config) (l : JList),
        processSchema cfg (JSON.arr l)
          = JSON.arr (jmap (fun e => processSchema cfg e)
              (filterRange cfg.manifest_version l))) ∧
    (∀ (cfg : Config) (p : JProps),
        processSchema cfg (JSON.obj p)
          = JSON.obj (enumsCleanup (diveProps cfg (fun e => processSchema cfg e)
              (enumsStep (choicesStep cfg.manifest_version
                (filterProps cfg.manifest_version p)))))) ∧
    filterRange 3 (jlist [jO [("value", JSON.str "a")],
        jO [("value", JSON.str "b"), ("min_manifest_version", JSON.num 3)],
        jO [("value", JSON.str "c"), ("max_manifest_version", JSON.num 2)]])
      = jlist [jO [("value", JSON.str "a")],
          jO [("value", JSON.str "b"), ("min_manifest_version", JSON.num 3)]] := by
  refine ⟨?_, filterRange_eq_spec, filterProps_eq_spec, processSchema_arr, ?_, by decide⟩
  · intro mv x h
    rw [isInVersionRange_eq_spec mv x h]
  · intro cfg p
    exact processSchema_obj cfg p

theorem claim_C1_witness :
    (isInVersionRange 3 (jO [("min_manifest_version", JSON.num 2)]) = true
      ↔ specRetained 3 (jO [("min_manifest_version", JSON.num 2)]) = true) ∧
    filterRange 2 (jlist [jO [("max_manifest_version", JSON.num 2)]])
      = specFilterRange 2 (jlist [jO [("max_manifest_version", JSON.num 2)]]) ∧
    filterProps 2 (jprops [("p", jO [("min_manifest_version", JSON.num 3)])])
      = specFilterProps 2 (jprops [("p", jO [("min_manifest_version", JSON.num 3)])]) :=
  ⟨claim_C1.1 3 (jO [("min_manifest_version", JSON.num 2)]) (by decide),
   claim_C1.2.1 2 (jlist [jO [("max_manifest_version", JSON.num 2)]]) (by decide),
   claim_C1.2.2.1 2 (jprops [("p", jO [("min_manifest_version", JSON.num 3)])]) (by decide)⟩

/-- C2: the current generator merges enum-only choices and inlines a single
remaining choice whenever the guards on the filtered list hold, with no
comparison against the original length, so the rewrite also fires when
filtering removed nothing (counterexample below); the merged enum is the
lexicographically sorted permutation of the concatenated enum arrays of the
surviving choices, and a single remaining choice is inlined into the parent
with the choices wrapper removed.  Only the legacy generator gates the
rewrite on the filter having removed an entry. -/
theorem claim_C2 :
    (∀ (mv : Int) (props : JProps) (cs : JList),
        getProp props "choices" = some (JSON.arr cs) →
        truthyOpt (getProp props "$extend") = false →
        choicesStep mv props = choicesFinish props (choicesMerged mv cs)) ∧
    (∀ (mv : Int) (cs : JList), filterRange mv cs ≠ JList.nil →
        allEnumArrays (filterRange mv cs) = true →
        choicesMerged mv cs
          = JList.cons (mergeEnumChoices (filterRange mv cs)) JList.nil) ∧
    (∀ (p : JProps) (tl : JList),
        mergeEnumChoices (JList.cons (JSON.obj p) tl)
          = JSON.obj (setKey p "enum"
              (JSON.arr (sortJ (flatEnums (JList.cons (JSON.obj p) tl)))))) ∧
    (∀ l : JList, chainLeB (sortJ l) = true) ∧
    (∀ l : JList, (toListJ (sortJ l)).Perm (toListJ l)) ∧
    (∀ (props : JProps) (merged : JList), jlength merged = 1 →
        choicesFinish props merged
          = objAssign (delKey props "choices") (headProps merged)) ∧
    (∀ (v : JList) (o : JProps),
        legacyChoicesCase (jlength v) v o = setKey o "choices" (JSON.arr v)) :=
  ⟨choicesStep_eq, choicesMerged_enum, mergeEnumChoices_obj, chainLeB_sortJ,
   sortJ_perm, choicesFinish_inline, legacyChoicesCase_nofilter⟩

theorem claim_C2_witness :
    choicesStep 3 (jprops [("choices", jA [jO [("enum", jA [JSON.str "b"])]])])
      = choicesFinish (jprops [("choices", jA [jO [("enum", jA [JSON.str "b"])]])])
          (choicesMerged 3 (jlist [jO [("enum", jA [JSON.str "b"])]])) ∧
    choicesFinish (jprops [("x", JSON.num 1)]) (jlist [jO []])
      = objAssign (delKey (jprops [("x", JSON.num 1)]) "choices")
          (headProps (jlist [jO []])) :=
  ⟨claim_C2.1 3 (jprops [("choices", jA [jO [("enum", jA [JSON.str "b"])]])])
      (jlist [jO [("enum", jA [JSON.str "b"])]]) (by decide) (by decide),
   claim_C2.2.2.2.2.2.1 (jprops [("x", JSON.num 1)]) (jlist [jO []]) (by decide)⟩

/-- C2 counterexample: a choices array from which version filtering removes
nothing — the filter returns it unchanged — is still merged into a single
sorted enum and inlined into the parent by processSchema at manifest
version 3, contradicting the only-if-filtering-removed-entries gating. -/
theorem claim_C2_counterexample :
    filterRange 3 (jlist [jO [("enum", jA [JSON.str "b"])],
        jO [("enum", jA [JSON.str "a"])]])
      = jlist [jO [("enum", jA [JSON.str "b"])], jO [("enum", jA [JSON.str "a"])]] ∧
    processSchema ⟨3, fun s => s, ""⟩
        (jO [("choices", jA [jO [("enum", jA [JSON.str "b"])],
          jO [("enum", jA [JSON.str "a"])]])])
      = jO [("enum", jA [JSON.str "a", JSON.str "b"])] :=
  ⟨by decide, by decide⟩

/-- C3: resolution of a $import deep-merges the stripped target into the
node.  Keys the import does not mention keep their original values, no key
of the node is deleted, and an own value of object type survives a
non-object import value — but an own primitive value whose key the import
also carries is overwritten by the imported value, against the claimed
precedence of the importing node (counterexample below). -/
theorem claim_C3 :
    (∀ (schema : JSON) (props : JProps) (target : JSON),
        hasProp props "$import" = true → importIdOf props ≠ "ManifestBase" →
        getNestedIdOrNamespace schema (importIdOf props) = some target →
        processImports schema (JSON.obj props)
          = mergeObjects (JSON.obj (delKey props "$import")) (stripImported target)) ∧
    (∀ (fp : JProps) (n : Nat) (tp : JProps) (k : String), hasProp fp k = false →
        propOf (mergeObjectsFuel n (JSON.obj tp) fp) k = getProp tp k) ∧
    (∀ (fp : JProps) (n : Nat) (tp : JProps) (k : String) (v fv : JSON),
        uniqKeysB fp = true → plength fp ≤ n →
        getProp tp k = some v → isObjType v = true →
        getProp fp k = some fv → isObjType fv = false →
        propOf (mergeObjectsFuel n (JSON.obj tp) fp) k = some v) ∧
    (∀ (fp : JProps) (n : Nat) (tp : JProps) (k : String),
        hasProp tp k = true →
        (propOf (mergeObjectsFuel n (JSON.obj tp) fp) k).isSome = true) ∧
    (∀ (fp : JProps) (n : Nat) (tp : JProps) (k : String) (w : JSON),
        uniqKeysB fp = true → plength fp ≤ n → getProp fp k = some w →
        isObjTypeOpt (getProp tp k) = false →
        propOf (mergeObjectsFuel n (JSON.obj tp) fp) k = some w) :=
  ⟨processImports_resolved, mergeFuel_frame, mergeFuel_keepObj, mergeFuel_presence,
   mergeFuel_overwrite⟩

theorem claim_C3_witness :
    propOf (mergeObjectsFuel 1 (JSON.obj (jprops [("a", JSON.num 1)])) JProps.nil) "a"
      = getProp (jprops [("a", JSON.num 1)]) "a" ∧
    propOf (mergeObjectsFuel 1 (JSON.obj (jprops [("a", JSON.num 1)]))
        (jprops [("b", JSON.num 2)])) "b" = some (JSON.num 2) :=
  ⟨claim_C3.2.1 JProps.nil 1 (jprops [("a", JSON.num 1)]) "a" (by decide),
   claim_C3.2.2.2.2 (jprops [("b", JSON.num 2)]) 1 (jprops [("a", JSON.num 1)]) "b"
     (JSON.num 2) (by decide) (by decide) (by decide) (by decide)⟩

/-- C3 counterexample: an importing node carrying its own primitive value
type: "string" imports a target whose type is "object"; after resolution
the own key does not keep its original value — the imported scalar
overwrites it. -/
theorem claim_C3_counterexample :
    propOf (jO [("$import", JSON.str "T"), ("type", JSON.str "string")]) "type"
      = some (JSON.str "string") ∧
    processImports (jO [("T", jO [("id", JSON.str "T"), ("type", JSON.str "object")])])
        (jO [("$import", JSON.str "T"), ("type", JSON.str "string")])
      = jO [("type", JSON.str "object")] :=
  ⟨by decide, by decide⟩

/-- C4: processSchema removes every min_manifest_version and
max_manifest_version key from every input, so the composed pipeline output
never retains them; and the resolver leaves import-free trees unchanged.
The absence of $import in the output is, however, not an invariant of the
composition: an import target that itself contains a nested $import hands
that key over unresolved (counterexample below). -/
theorem claim_C4 :
    (∀ (cfg : Config) (schema v : JSON) (s : String),
        s = "min_manifest_version" ∨ s = "max_manifest_version" →
        hasKeyDeep s (processSchema cfg (processImports schema v)) = false) ∧
    (∀ (schema v : JSON), hasKeyDeep "$import" v = false →
        processImports schema v = v) :=
  ⟨fun cfg schema v s hs => hasKeyDeep_processSchema cfg (processImports schema v) s hs,
   fun schema v h => processImports_clean schema v h⟩

theorem claim_C4_witness :
    hasKeyDeep "min_manifest_version"
      (processSchema ⟨2, fun s => s, ""⟩ (processImports JSON.null
        (jO [("min_manifest_version", JSON.num 2)]))) = false ∧
    processImports JSON.null (jO [("a", JSON.num 1)]) = jO [("a", JSON.num 1)] :=
  ⟨claim_C4.1 ⟨2, fun s => s, ""⟩ JSON.null (jO [("min_manifest_version", JSON.num 2)])
      "min_manifest_version" (Or.inl rfl),
   claim_C4.2 JSON.null (jO [("a", JSON.num 1)]) (by decide)⟩

/-- C4 counterexample: a node imports a target that itself contains a
nested $import; the resolver merges the target without recursing into the
merged content, and the version filter never touches $import keys, so the
pipeline output still contains a $import key. -/
theorem claim_C4_counterexample :
    hasKeyDeep "$import"
      (processSchema ⟨3, fun s => s, ""⟩
        (processImports
          (jO [("node", jO [("$import", JSON.str "T")]),
            ("defs", jA [jO [("id", JSON.str "T"),
                ("inner", jO [("$import", JSON.str "U")])],
              jO [("id", JSON.str "U"), ("x", JSON.num 1)]])])
          (jO [("node", jO [("$import", JSON.str "T")]),
            ("defs", jA [jO [("id", JSON.str "T"),
                ("inner", jO [("$import", JSON.str "U")])],
              jO [("id", JSON.str "U"), ("x", JSON.num 1)]])]))) = true := by
  decide

/-- C5: the revision scan walks the bounded log from its oldest entry (the
highest index of the newest-first list) towards the newest; it returns none
(false) exactly when no sampled revision contains the element, and a found
result is the major-version prefix (text before the first dot) of the
version file at an entry passing the test while every strictly older entry
fails it — the oldest hit; in the 3-entry scenario where only the oldest
entry lacks the element, the chronologically second entry wins. -/
theorem claim_C5 :
    (∀ (t : String → Bool) (vA : String → String) (entries : List String),
        extractThunderbirdCompatData t vA entries = none
          ↔ ∀ r ∈ entries, t r = false) ∧
    (∀ (t : String → Bool) (vA : String → String) (entries : List String)
        (vs : String), extractThunderbirdCompatData t vA entries = some vs →
        ∃ j, j < entries.length ∧ ∃ r, entries[j]? = some r ∧ t r = true ∧
          vs = majorVersionOf (vA r) ∧
          ∀ j2, j < j2 → j2 < entries.length → ∀ r2, entries[j2]? = some r2 →
            t r2 = false) ∧
    extractThunderbirdCompatData (fun r => decide ¬(r = "r1"))
        (fun r => if r = "r2" then "140.0a1" else if r = "r3" then "141.0" else "139.0")
        ["r3", "r2", "r1"]
      = some "140" := by
  refine ⟨?_, ?_, by decide⟩
  · intro t vA entries
    constructor
    · intro h r hr
      obtain ⟨j, hj, hjq⟩ := getqRev entries r hr
      exact ((extractScanTB_none_iff t vA entries entries.length).mp h) j hj r hjq
    · intro h
      exact (extractScanTB_none_iff t vA entries entries.length).mpr
        (fun j hj r hjq => h r (getqMem entries j r hjq))
  · intro t vA entries vs h
    exact extractScanTB_found t vA entries entries.length vs h

theorem claim_C5_witness :
    ∃ j, j < (["x"] : List String).length ∧ ∃ r, (["x"] : List String)[j]? = some r ∧
      (fun _ : String => true) r = true ∧
      "9" = majorVersionOf ((fun _ : String => "9.1") r) ∧
      ∀ j2, j < j2 → j2 < (["x"] : List String).length → ∀ r2,
        (["x"] : List String)[j2]? = some r2 → (fun _ : String => true) r2 = false :=
  claim_C5.2.1 (fun _ => true) (fun _ => "9.1") ["x"] "9" (by decide)

/-- C6: the version_added / version_removed case pushes one annotation
exactly when none with that key exists yet, and the pushed value is the
Thunderbird root-level override exactly when it parses as an integer and
the Firefox/BCD value is true, non-numeric, or numerically smaller than the
override; in every other case the Firefox value is pushed. -/
theorem claim_C6 (ann : JList) (key : String) (tv fv : JSON) :
    versionKeyCase ann key tv fv
      = (if hasAnnKeyed ann key then ann
         else jappend ann (JList.cons (JSON.obj (JProps.cons key
             (if specTbOverrideWins tv fv then tv else fv) JProps.nil)) JList.nil)) := by
  unfold versionKeyCase
  rw [pickBcd_eq_spec]

/-- C7: the merger aborts with the type-mismatch error on a typeof or
array-ness difference, with the unmatched-entry error when an annotation
array entry matches no schema entry, and with the choices-length error when
a truthy schema choices value and the annotation choices value differ in
length; an annotation object whose keys are all new to the schema completes
without error, assigning them, and the embedding never reaches its fuel
marker — but beyond the three documented conditions the merger also aborts
with a JavaScript TypeError on degenerate pairs such as corresponding
nulls (counterexample below). -/
theorem claim_C7 :
    (∀ (rf : String → String) (s a : JSON),
        ¬(jsTypeof s = jsTypeof a ∧ isArrB s = isArrB a) →
        mergeAnnotations rf s a = Except.error MergeErr.typeMismatch) ∧
    (∀ (rf : String → String) (sl : JList) (aEntry : JSON) (atl : JList),
        jany (annEntryMatches aEntry) sl = false →
        mergeAnnotations rf (JSON.arr sl) (JSON.arr (JList.cons aEntry atl))
          = Except.error MergeErr.unmatchedEntry) ∧
    (∀ (rf : String → String) (sp : JProps) (av : JSON) (atl : JProps),
        truthyOpt (getProp sp "choices") = true →
        jsLengthOpt ((getProp sp "choices").getD JSON.null) ≠ jsLengthOpt av →
        mergeAnnotations rf (JSON.obj sp) (JSON.obj (JProps.cons "choices" av atl))
          = Except.error MergeErr.choicesLen) ∧
    (∀ (rf : String → String) (sp ap : JProps), freshKeysB sp ap = true →
        mergeAnnotations rf (JSON.obj sp) (JSON.obj ap)
          = Except.ok (JSON.obj (objAssign sp ap))) ∧
    (∀ (rf : String → String) (s a : JSON),
        mergeAnnotations rf s a ≠ Except.error MergeErr.fuelOut) :=
  ⟨fun rf s a h => mergeAnnFuel_mismatch rf (depth a) s a h,
   fun rf sl aEntry atl h =>
     mergeAnn_unmatched rf (depth (JSON.arr (JList.cons aEntry atl))) sl aEntry atl h,
   fun rf sp av atl h1 h2 =>
     mergeAnn_choicesLen rf (depth (JSON.obj (JProps.cons "choices" av atl)))
       sp av atl h1 h2,
   fun rf sp ap h => mergeAnn_freshOk rf (depth (JSON.obj ap)) sp ap h,
   fun rf s a => mergeAnnFuel_nf rf (depth a + 1) s a (le_refl _)⟩

theorem claim_C7_witness :
    mergeAnnotations (fun _ => "") (JSON.num 1) (JSON.str "a")
      = Except.error MergeErr.typeMismatch ∧
    mergeAnnotations (fun _ => "") (jO []) (jO [("note", JSON.str "n")])
      = Except.ok (JSON.obj (objAssign (jprops []) (jprops [("note", JSON.str "n")]))) :=
  ⟨claim_C7.1 (fun _ => "") (JSON.num 1) (JSON.str "a") (by decide),
   claim_C7.2.2.2.1 (fun _ => "") (jprops []) (jprops [("note", JSON.str "n")])
     (by decide)⟩

/-- C7 counterexample: two structurally identical schema/annotation nodes
holding choices arrays of equal length whose sole entries are null — no
typeof or array-ness difference, no annotation array entry, equal choices
lengths — still abort the merge, with the TypeError JavaScript raises on a
null pair, an error mode the claim does not list. -/
theorem claim_C7_counterexample :
    jsTypeof (jO [("choices", jA [JSON.null])])
      = jsTypeof (jO [("choices", jA [JSON.null])]) ∧
    isArrB (jO [("choices", jA [JSON.null])])
      = isArrB (jO [("choices", jA [JSON.null])]) ∧
    jsLengthOpt ((getProp (jprops [("choices", jA [JSON.null])]) "choices").getD
        JSON.null) = jsLengthOpt (jA [JSON.null]) ∧
    mergeAnnotations (fun _ => "") (jO [("choices", jA [JSON.null])])
        (jO [("choices", jA [JSON.null])])
      = Except.error MergeErr.jsTypeError :=
  ⟨rfl, rfl, rfl, rfl⟩

/-- C8: the documentation anchor of an entry is the entry name followed by
its parameter names without any parameter literally named callback,
hyphen-joined and lowercased; the URL is the release slug of the
documentation base, the namespace page and the anchor; the annotation is
appended exactly when the live URL check accepts; and the scenario function
myFunction with parameters x and callback yields the anchor myfunction-x. -/
theorem claim_C8 :
    (∀ (entryName : String) (value : JSON) (l : JList),
        propOf value "parameters" = some (JSON.arr l) → allStringNames l = true →
        docAnchorOf entryName value
          = toLowerStr (joinDash (entryName ::
              (paramNamesOf l).filter (fun s => decide ¬(s = "callback"))))) ∧
    (∀ (cfg : Config) (namespaceName entryName : String) (value : JSON),
        apiDocUrlOf cfg namespaceName entryName value
          = getApiDocSlug cfg ++ "/" ++ namespaceName ++ ".html#"
              ++ docAnchorOf entryName value) ∧
    (∀ (cfg : Config) (urlValid : String → Bool) (nsName entryName : String)
        (value : JSON) (ann : JList),
        urlValid (apiDocUrlOf cfg nsName entryName value) = true →
        addTbDocUrlAnnotations cfg urlValid nsName entryName value ann
          = jappend ann (JList.cons (JSON.obj (JProps.cons "api_documentation_url"
              (JSON.str (apiDocUrlOf cfg nsName entryName value)) JProps.nil))
              JList.nil)) ∧
    docAnchorOf "myFunction" (jO [("parameters",
        jA [jO [("name", JSON.str "x")], jO [("name", JSON.str "callback")]])])
      = "myfunction-x" := by
  refine ⟨docAnchorOf_eq, fun cfg ns en v => rfl, ?_, by decide⟩
  intro cfg urlValid nsName entryName value ann h
  unfold addTbDocUrlAnnotations
  rw [if_pos h]

theorem claim_C8_witness :
    docAnchorOf "get" (jO [("parameters", jA [jO [("name", JSON.str "tabId")]])])
      = toLowerStr (joinDash ("get" ::
          (paramNamesOf (jlist [jO [("name", JSON.str "tabId")]])).filter
            (fun s => decide ¬(s = "callback")))) ∧
    addTbDocUrlAnnotations ⟨3, fun s => s, "beta"⟩ (fun _ => true) "tabs" "get"
        (jO []) JList.nil
      = jappend JList.nil (JList.cons (JSON.obj (JProps.cons "api_documentation_url"
          (JSON.str (apiDocUrlOf ⟨3, fun s => s, "beta"⟩ "tabs" "get" (jO [])))
          JProps.nil)) JList.nil) :=
  ⟨claim_C8.1 "get" (jO [("parameters", jA [jO [("name", JSON.str "tabId")]])])
      (jlist [jO [("name", JSON.str "tabId")]]) (by decide) (by decide),
   claim_C8.2.2.1 ⟨3, fun s => s, "beta"⟩ (fun _ => true) "tabs" "get" (jO [])
     JList.nil rfl⟩

/-- C9: the resolver is modeled without any I/O, but it is not free of
effects on its argument: the source deletes keys of the input tree in
place, so the argument matches its pre-call state only when the tree holds
no $import at all; on import-free trees the argument is untouched and
coincides with the returned value. -/
theorem claim_C9 :
    (∀ (schema v : JSON), hasKeyDeep "$import" v = false →
        argAfterImports schema v = v) ∧
    (∀ (schema v : JSON), hasKeyDeep "$import" v = false →
        processImports schema v = argAfterImports schema v) :=
  ⟨argAfterImports_clean,
   fun schema v h => by
     rw [argAfterImports_clean schema v h, processImports_clean schema v h]⟩

theorem claim_C9_witness :
    argAfterImports JSON.null (jO [("a", JSON.num 1)]) = jO [("a", JSON.num 1)] :=
  claim_C9.1 JSON.null (jO [("a", JSON.num 1)]) (by decide)

/-- C9 counterexample: a node importing ManifestBase; the source deletes
the $import key of its argument before recognizing the ManifestBase skip,
so after the call the argument is an empty object, not its pre-call
state. -/
theorem claim_C9_counterexample :
    argAfterImports (JSON.obj JProps.nil) (jO [("$import", JSON.str "ManifestBase")])
      = JSON.obj JProps.nil ∧
    jO [("$import", JSON.str "ManifestBase")] ≠ JSON.obj JProps.nil :=
  ⟨by decide, by decide⟩

/-- C10: sortKeys preserves every array position at every nesting depth —
along any access path an array of the input maps to the elementwise
sortKeys image of itself, with equal length and index-by-index correspondence
— and primitives are returned unchanged; only object key order changes. -/
theorem claim_C10 :
    (∀ (path : List PathStep) (v : JSON) (l : JList), uniqDeep v = true →
        getAtPath v path = some (JSON.arr l) →
        getAtPath (sortKeys v) path = some (JSON.arr (sortKeysL l))) ∧
    (∀ l : JList, jlength (sortKeysL l) = jlength l) ∧
    (∀ (l : JList) (i : Nat), jget (sortKeysL l) i = (jget l i).map sortKeys) ∧
    sortKeys JSON.null = JSON.null ∧
    (∀ b, sortKeys (JSON.bool b) = JSON.bool b) ∧
    (∀ n, sortKeys (JSON.num n) = JSON.num n) ∧
    (∀ s, sortKeys (JSON.str s) = JSON.str s) := by
  refine ⟨?_, jlength_sortKeysL, jget_sortKeysL, rfl, fun b => rfl, fun n => rfl,
    fun s => rfl⟩
  intro path v l hu hp
  rw [getAtPath_sortKeys path v hu, hp]
  rfl

theorem claim_C10_witness :
    getAtPath (sortKeys (jO [("b", jA [JSON.num 1, JSON.num 2]), ("a", JSON.num 0)]))
        [PathStep.key "b"]
      = some (JSON.arr (sortKeysL (jlist [JSON.num 1, JSON.num 2]))) :=
  claim_C10.1 [PathStep.key "b"]
    (jO [("b", jA [JSON.num 1, JSON.num 2]), ("a", JSON.num 0)])
    (jlist [JSON.num 1, JSON.num 2]) (by decide) (by decide)

end WES
